import Mathlib

/-!
Verification of the embedding-service core (document chunking, bounded
embedding cache, compliance tagging, vector search, and persistence flow)
against its natural-language specification.

Texts are modelled as `List Char` (Python `str`).  Python regular
expressions used by the source are compiled by hand into structurally
recursive character scanners so that every definition is executable.
-/

namespace Champ

/-- The Python `\s` whitespace class, restricted to the ASCII whitespace
characters (the documents in scope are ASCII; the source operates on
`str` where `\s` also covers these six characters). -/
def pyIsSpace (c : Char) : Bool :=
  c = ' ' || c = '\t' || c = '\n' || c = '\r' || c = '\x0b' || c = '\x0c'

/-- `re.sub(r'\s+', ' ', text)` from `ChunkingService._clean_text`:
replace every maximal run of whitespace by a single space.  The flag
records whether the scanner is inside a whitespace run. -/
def collapseWsAux : Bool → List Char → List Char
  | _, [] => []
  | inRun, c :: cs =>
    if pyIsSpace c then
      if inRun then collapseWsAux true cs else ' ' :: collapseWsAux true cs
    else c :: collapseWsAux false cs

def collapseWs (s : List Char) : List Char := collapseWsAux false s

/-- The character allow-list of `re.sub(r'[^\w\s.,!?;:()\-"\'\[\]]', '', text)`:
word characters (`\w`, ASCII reading), whitespace, and the listed
punctuation survive; everything else is deleted. -/
def isAllowedChar (c : Char) : Bool :=
  c.isAlphanum || c = '_' || pyIsSpace c ||
    c = '.' || c = ',' || c = '!' || c = '?' || c = ';' || c = ':' ||
    c = '(' || c = ')' || c = '-' || c = '"' || c = '\'' || c = '[' || c = ']'

/-- Python `str.strip()`: drop leading and trailing whitespace. -/
def stripChars (s : List Char) : List Char :=
  ((s.dropWhile pyIsSpace).reverse.dropWhile pyIsSpace).reverse

/-- `ChunkingService._clean_text`: collapse whitespace, delete characters
outside the allow-list, strip. -/
def cleanText (s : List Char) : List Char :=
  stripChars ((collapseWs s).filter isAllowedChar)

def isTerminator (c : Char) : Bool := c = '.' || c = '!' || c = '?'

/-- `re.split(r'(?<=[.!?])\s+', text)` from
`ChunkingService._split_sentences`, compiled to a scanner: a sentence ends
at a terminator that is immediately followed by whitespace; the whole
whitespace run after the terminator is the delimiter and is consumed
(the `skipping` flag).  `acc` holds the current piece reversed. -/
def splitSentencesAux : Bool → List Char → List Char → List (List Char)
  | _, acc, [] => [acc.reverse]
  | skipping, acc, c :: cs =>
    if skipping && pyIsSpace c then splitSentencesAux true acc cs
    else if isTerminator c && (match cs with | d :: _ => pyIsSpace d | [] => false) then
      (c :: acc).reverse :: splitSentencesAux true [] cs
    else splitSentencesAux false (c :: acc) cs

/-- `ChunkingService._split_sentences`:
`[s.strip() for s in re.split(...) if s.strip()]`. -/
def splitSentences (s : List Char) : List (List Char) :=
  ((splitSentencesAux false [] s).map stripChars).filter (fun p => !p.isEmpty)

/-- `' '.join(pieces)`. -/
def joinSpace : List (List Char) → List Char
  | [] => []
  | [s] => s
  | s :: rest => s ++ ' ' :: joinSpace rest

/-- Python `str.split()` word counting for
`ChunkingService._estimate_tokens`: the number of maximal non-whitespace
runs. -/
def wordCountAux : Bool → List Char → Nat
  | _, [] => 0
  | inWord, c :: cs =>
    if pyIsSpace c then wordCountAux false cs
    else if inWord then wordCountAux true cs else 1 + wordCountAux true cs

def estimateTokens (s : List Char) : Nat := wordCountAux false s

/-- Python `text.split('\n')`: the list of lines (empty pieces kept;
never the empty list). -/
def splitOnNewline : List Char → List (List Char)
  | [] => [[]]
  | c :: cs =>
    if c = '\n' then [] :: splitOnNewline cs
    else
      match splitOnNewline cs with
      | [] => [[c]]
      | l :: rest => (c :: l) :: rest

/-- Python `s.endswith(('.', '!', '?'))`: true iff the last character is a
terminator (`False` on the empty string). -/
def endsWithTerminal (s : List Char) : Bool :=
  match s.getLast? with
  | some c => isTerminator c
  | none => false

/-- `ChunkingService._has_header`: the first line is shorter than 100
characters and, once stripped, does not end with terminal punctuation. -/
def hasHeader (t : List Char) : Bool :=
  match splitOnNewline t with
  | [] => false
  | l0 :: _ => if l0.length < 100 then !endsWithTerminal (stripChars l0) else false

/-- `ChunkingService._extract_section_title`: the stripped first line when
`hasHeader`, otherwise `None`. -/
def extractSectionTitle (t : List Char) : Option (List Char) :=
  if hasHeader t then
    match splitOnNewline t with
    | [] => none
    | l0 :: _ => some (stripChars l0)
  else none

/-- One chunk record produced by `ChunkingService.chunk_text`. -/
structure Chunk where
  chunk_index : Nat
  chunk_text : List Char
  token_count : Nat
  char_count : Nat
  start_position : Nat
  end_position : Nat
  has_header : Bool
  section_title : Option (List Char)
  deriving Repr, DecidableEq

/-- The chunk dictionary built at each seal point of
`ChunkingService.chunk_text`. -/
def mkChunk (idx : Nat) (buf : List (List Char)) (pos : Nat) : Chunk :=
  let t := joinSpace buf
  { chunk_index := idx
    chunk_text := t
    token_count := estimateTokens t
    char_count := t.length
    start_position := pos
    end_position := pos + t.length
    has_header := hasHeader t
    section_title := extractSectionTitle t }

/-- `current_chunk[-2:] if len(current_chunk) > 2 else current_chunk`:
the overlap carried into the next buffer. -/
def overlapOf (buf : List (List Char)) : List (List Char) :=
  if buf.length > 2 then buf.drop (buf.length - 2) else buf

/-- The sentence loop of `ChunkingService.chunk_text`.  State:
remaining sentences, current buffer, its summed character length,
next chunk index, and the running character position. -/
def chunkLoop (chunkSize : Nat) :
    List (List Char) → List (List Char) → Nat → Nat → Nat → List Chunk
  | [], cur, _, idx, pos => if cur.isEmpty then [] else [mkChunk idx cur pos]
  | s :: rest, cur, curLen, idx, pos =>
    if curLen + s.length > chunkSize && !cur.isEmpty then
      let c := mkChunk idx cur pos
      let ncur := overlapOf cur ++ [s]
      c :: chunkLoop chunkSize rest ncur (ncur.map List.length).sum (idx + 1)
        (pos + c.char_count)
    else
      chunkLoop chunkSize rest (cur ++ [s]) (curLen + s.length) idx pos

/-- `ChunkingService.chunk_text` (the `document_id` argument only feeds a
log line and is omitted).  `chunkSize` is `CHUNK_SIZE`, default 512. -/
def chunk_text (chunkSize : Nat) (text : List Char) : List Chunk :=
  chunkLoop chunkSize (splitSentences (cleanText text)) [] 0 0 0

theorem chunkLoop_map_index (n : Nat) (sents cur : List (List Char))
    (len idx pos : Nat) :
    (chunkLoop n sents cur len idx pos).map Chunk.chunk_index =
      List.range' idx (chunkLoop n sents cur len idx pos).length := by
  induction sents, cur, len, idx, pos using chunkLoop.induct n with
  | case1 cur len idx pos h => simp [chunkLoop, h]
  | case2 cur len idx pos h => simp [chunkLoop, h, mkChunk]
  | case3 s rest cur len idx pos hcond c ncur ih =>
    simp only [chunkLoop, hcond, if_true, List.map_cons, List.length_cons]
    rw [List.range'_succ]
    exact congrArg (List.cons (mkChunk idx cur pos).chunk_index) ih
  | case4 s rest cur len idx pos hcond ih =>
    simp only [chunkLoop, hcond, if_false]
    exact ih

theorem chunkLoop_fields (n : Nat) (sents cur : List (List Char))
    (len idx pos : Nat) :
    ∀ c ∈ chunkLoop n sents cur len idx pos,
      c.char_count = c.chunk_text.length ∧
        c.end_position = c.start_position + c.char_count := by
  induction sents, cur, len, idx, pos using chunkLoop.induct n with
  | case1 cur len idx pos h => simp [chunkLoop, h]
  | case2 cur len idx pos h => simp [chunkLoop, h, mkChunk]
  | case3 s rest cur len idx pos hcond c ncur ih =>
    simp only [chunkLoop, hcond, if_true, List.mem_cons]
    rintro x (rfl | hx)
    · exact ⟨rfl, rfl⟩
    · exact ih x hx
  | case4 s rest cur len idx pos hcond ih =>
    simpa only [chunkLoop, hcond, if_false] using ih

theorem chunkLoop_head_start (n : Nat) (sents cur : List (List Char))
    (len idx pos : Nat) (c : Chunk)
    (h : (chunkLoop n sents cur len idx pos).head? = some c) :
    c.start_position = pos := by
  induction sents, cur, len, idx, pos using chunkLoop.induct n with
  | case1 cur len idx pos hc => simp [chunkLoop, hc] at h
  | case2 cur len idx pos hc =>
    simp [chunkLoop, hc, mkChunk] at h
    rw [← h]
  | case3 s rest cur len idx pos hcond c ncur ih =>
    simp only [chunkLoop, hcond, if_true, List.head?_cons, Option.some.injEq] at h
    rw [← h]; rfl
  | case4 s rest cur len idx pos hcond ih =>
    simp only [chunkLoop, hcond, if_false] at h
    exact ih h

theorem chunkLoop_chain (n : Nat) (sents cur : List (List Char))
    (len idx pos : Nat) :
    List.Chain' (fun a b => b.start_position = a.end_position)
      (chunkLoop n sents cur len idx pos) := by
  induction sents, cur, len, idx, pos using chunkLoop.induct n with
  | case1 cur len idx pos h => simp [chunkLoop, h]
  | case2 cur len idx pos h => simp [chunkLoop, h]
  | case3 s rest cur len idx pos hcond c ncur ih =>
    simp only [chunkLoop, hcond, if_true]
    rw [List.chain'_cons']
    refine ⟨fun y hy => ?_, ih⟩
    have := chunkLoop_head_start n rest (overlapOf cur ++ [s])
      ((overlapOf cur ++ [s]).map List.length).sum (idx + 1)
      (pos + (mkChunk idx cur pos).char_count) y (Option.mem_def.mp hy)
    rw [this]; rfl
  | case4 s rest cur len idx pos hcond ih =>
    simpa only [chunkLoop, hcond, if_false] using ih

/-- C5: for every non-empty input text, the chunk records produced by
`chunk_text` are well-formed: the `chunk_index` fields are exactly
`0..n-1` in order, each chunk's `char_count` is the length of its
`chunk_text`, each `end_position` is `start_position + char_count`, the
first chunk starts at position 0, and every later chunk starts at the
immediately preceding chunk's `end_position`. -/
theorem C5_chunk_records_wellformed (text : List Char) (_htext : text ≠ []) :
    (chunk_text 512 text).map Chunk.chunk_index =
        List.range (chunk_text 512 text).length ∧
      (∀ c ∈ chunk_text 512 text,
        c.char_count = c.chunk_text.length ∧
          c.end_position = c.start_position + c.char_count) ∧
      (∀ c, (chunk_text 512 text).head? = some c → c.start_position = 0) ∧
      List.Chain' (fun a b => b.start_position = a.end_position)
        (chunk_text 512 text) := by
  refine ⟨?_, ?_, ?_, ?_⟩
  · rw [List.range_eq_range']
    exact chunkLoop_map_index 512 (splitSentences (cleanText text)) [] 0 0 0
  · exact chunkLoop_fields 512 (splitSentences (cleanText text)) [] 0 0 0
  · exact fun c h => chunkLoop_head_start 512 (splitSentences (cleanText text)) [] 0 0 0 c h
  · exact chunkLoop_chain 512 (splitSentences (cleanText text)) [] 0 0 0

/-- Witness for C5 at the concrete input `"One. Two."`. -/
theorem C5_chunk_records_wellformed_witness :
    "One. Two.".data ≠ [] ∧
      ((chunk_text 512 "One. Two.".data).map Chunk.chunk_index =
          List.range (chunk_text 512 "One. Two.".data).length ∧
        (∀ c ∈ chunk_text 512 "One. Two.".data,
          c.char_count = c.chunk_text.length ∧
            c.end_position = c.start_position + c.char_count) ∧
        (∀ c, (chunk_text 512 "One. Two.".data).head? = some c →
          c.start_position = 0) ∧
        List.Chain' (fun a b => b.start_position = a.end_position)
          (chunk_text 512 "One. Two.".data)) :=
  ⟨by decide, C5_chunk_records_wellformed "One. Two.".data (by decide)⟩

theorem joinSpace_cons (s : List Char) (rest : List (List Char)) (h : rest ≠ []) :
    joinSpace (s :: rest) = s ++ ' ' :: joinSpace rest := by
  cases rest with
  | nil => exact absurd rfl h
  | cons y ys => rfl

theorem joinSpace_append (a b : List (List Char)) (ha : a ≠ []) (hb : b ≠ []) :
    joinSpace (a ++ b) = joinSpace a ++ ' ' :: joinSpace b := by
  induction a with
  | nil => exact absurd rfl ha
  | cons x xs ih =>
    cases xs with
    | nil => simp [joinSpace_cons x b hb, joinSpace]
    | cons z zs =>
      rw [List.cons_append, joinSpace_cons x ((z :: zs) ++ b) (by simp),
        ih (by simp), joinSpace_cons x (z :: zs) (by simp)]
      simp

theorem overlapOf_eq_drop (buf : List (List Char)) :
    overlapOf buf = buf.drop (buf.length - 2) := by
  unfold overlapOf
  by_cases h : buf.length > 2
  · simp [h]
  · simp only [h, if_false]
    rw [Nat.sub_eq_zero_of_le (by omega), List.drop_zero]

theorem overlapOf_ne_nil (buf : List (List Char)) (h : buf ≠ []) :
    overlapOf buf ≠ [] := by
  rw [overlapOf_eq_drop, ← List.length_pos, List.length_drop]
  have := List.length_pos.mpr h
  omega

/-- Relation between adjacent chunks: the earlier chunk's text is the join
of the buffer `buf` it sealed, and the later chunk's text is the join of
the carried-over overlap of `buf` followed by at least one more
sentence. -/
def overlapRel (a b : Chunk) : Prop :=
  ∃ buf rest, buf ≠ [] ∧ rest ≠ [] ∧ a.chunk_text = joinSpace buf ∧
    b.chunk_text = joinSpace (overlapOf buf ++ rest)

theorem chunkLoop_overlap (n : Nat) (sents cur : List (List Char))
    (len idx pos : Nat) :
    (cur ≠ [] → ∃ buf c, (chunkLoop n sents cur len idx pos).head? = some c ∧
      cur <+: buf ∧ c.chunk_text = joinSpace buf) ∧
      List.Chain' overlapRel (chunkLoop n sents cur len idx pos) := by
  induction sents, cur, len, idx, pos using chunkLoop.induct n with
  | case1 cur len idx pos h =>
    rw [List.isEmpty_iff] at h
    subst h
    exact ⟨fun hc => absurd rfl hc, by simp [chunkLoop]⟩
  | case2 cur len idx pos h =>
    refine ⟨fun hc => ⟨cur, mkChunk idx cur pos, ?_, List.prefix_refl cur, rfl⟩, ?_⟩
    · simp [chunkLoop, h]
    · simp [chunkLoop, h]
  | case3 s rest cur len idx pos hcond c ncur ih =>
    have hcur : cur ≠ [] := by
      intro hc
      simp [hc] at hcond
    obtain ⟨ih1, ih2⟩ := ih
    obtain ⟨buf, c', hhead, hpre, htext⟩ := ih1 (by simp [ncur])
    refine ⟨fun _ => ⟨cur, mkChunk idx cur pos, ?_, List.prefix_refl cur, rfl⟩, ?_⟩
    · simp [chunkLoop, hcond]
    · simp only [chunkLoop, hcond, if_true]
      rw [List.chain'_cons']
      refine ⟨fun y hy => ?_, ih2⟩
      rw [Option.mem_def, hhead] at hy
      obtain rfl : c' = y := by injection hy
      obtain ⟨t, rfl⟩ := hpre
      refine ⟨cur, [s] ++ t, hcur, by simp, rfl, ?_⟩
      rw [htext, List.append_assoc]
  | case4 s rest cur len idx pos hcond ih =>
    obtain ⟨ih1, ih2⟩ := ih
    refine ⟨fun hc => ?_, by simpa only [chunkLoop, hcond, if_false] using ih2⟩
    obtain ⟨buf, c', hhead, hpre, htext⟩ := ih1 (by simp)
    refine ⟨buf, c', ?_, ?_, htext⟩
    · simpa only [chunkLoop, hcond, if_false] using hhead
    · exact ((cur.prefix_append [s]).trans hpre)

/-- C6: for any two adjacent chunks produced by `chunk_text`, the earlier
chunk's text is the space-join of the sentence buffer `buf` it sealed, and
the later chunk's text begins with the space-join of the overlap carried
from `buf` — the last two sentences of `buf` when it held at least two
(`buf.drop (buf.length - 2)`), or all of `buf` when it held fewer. -/
theorem C6_adjacent_chunk_overlap (text : List Char) :
    List.Chain'
      (fun a b => ∃ buf, buf ≠ [] ∧ a.chunk_text = joinSpace buf ∧
        overlapOf buf = buf.drop (buf.length - 2) ∧
        joinSpace (overlapOf buf) <+: b.chunk_text)
      (chunk_text 512 text) := by
  have h := (chunkLoop_overlap 512 (splitSentences (cleanText text)) [] 0 0 0).2
  refine h.imp ?_
  rintro a b ⟨buf, rest, hbuf, hrest, ha, hb⟩
  refine ⟨buf, hbuf, ha, overlapOf_eq_drop buf, ?_⟩
  rw [hb, joinSpace_append (overlapOf buf) rest (overlapOf_ne_nil buf hbuf) hrest]
  exact List.prefix_append _ _

theorem mem_collapseWsAux {c : Char} :
    ∀ (b : Bool) (l : List Char), c ∈ collapseWsAux b l → pyIsSpace c = true → c = ' ' := by
  intro b l
  induction l generalizing b with
  | nil => simp [collapseWsAux]
  | cons x xs ih =>
    intro hmem hsp
    by_cases hx : pyIsSpace x = true
    · by_cases hb : b = true
      · exact ih true (by simpa [collapseWsAux, hx, hb] using hmem) hsp
      · rcases (by simpa [collapseWsAux, hx, hb] using hmem : c = ' ' ∨ c ∈ collapseWsAux true xs) with h | h
        · exact h
        · exact ih true h hsp
    · rcases (by simpa [collapseWsAux, hx] using hmem : c = x ∨ c ∈ collapseWsAux false xs) with h | h
      · subst h; exact absurd hsp (by simpa using hx)
      · exact ih false h hsp

theorem mem_stripChars {c : Char} {s : List Char} (h : c ∈ stripChars s) : c ∈ s := by
  unfold stripChars at h
  rw [List.mem_reverse] at h
  have h2 := (List.dropWhile_suffix pyIsSpace).mem h
  rw [List.mem_reverse] at h2
  exact (List.dropWhile_suffix pyIsSpace).mem h2

theorem cleanText_no_newline (t : List Char) : '\n' ∉ cleanText t := by
  intro h
  have h1 := mem_stripChars h
  have h2 := List.mem_of_mem_filter h1
  have := mem_collapseWsAux false t h2 (by decide)
  simp at this

/-- Whether a string has no leading and no trailing whitespace (as
`str.strip()` output does). -/
def noEdgeSpace (s : List Char) : Bool :=
  (match s.head? with | some c => !pyIsSpace c | none => true) &&
    (match s.getLast? with | some c => !pyIsSpace c | none => true)

theorem head?_dropWhile_not (p : Char → Bool) (l : List Char) :
    ∀ c, (l.dropWhile p).head? = some c → p c = false := by
  induction l with
  | nil => intro c h; simp [List.dropWhile] at h
  | cons x xs ih =>
    intro c h
    by_cases hx : p x = true
    · exact ih c (by simpa [List.dropWhile_cons, hx] using h)
    · have : x = c := by simpa [List.dropWhile_cons, hx] using h
      subst this
      simpa using hx

theorem stripChars_noEdgeSpace (s : List Char) : noEdgeSpace (stripChars s) = true := by
  unfold noEdgeSpace
  rw [Bool.and_eq_true]
  constructor
  · rw [stripChars, List.head?_reverse]
    cases hv : (((s.dropWhile pyIsSpace).reverse).dropWhile pyIsSpace).getLast? with
    | none => rfl
    | some c =>
      have hne : ((s.dropWhile pyIsSpace).reverse).dropWhile pyIsSpace ≠ [] := by
        intro h0; rw [h0] at hv; simp at hv
      obtain ⟨t, ht⟩ :=
        List.dropWhile_suffix (l := (s.dropWhile pyIsSpace).reverse) pyIsSpace
      have hlast : ((s.dropWhile pyIsSpace).reverse).getLast? = some c := by
        rw [← ht, List.getLast?_append_of_ne_nil _ hne, hv]
      rw [List.getLast?_reverse] at hlast
      have := head?_dropWhile_not pyIsSpace s c hlast
      simp [this]
  · rw [stripChars, List.getLast?_reverse]
    cases hv : (((s.dropWhile pyIsSpace).reverse).dropWhile pyIsSpace).head? with
    | none => rfl
    | some c =>
      have := head?_dropWhile_not pyIsSpace ((s.dropWhile pyIsSpace).reverse) c hv
      simp [this]

theorem dropWhile_eq_self_of_head (p : Char → Bool) (l : List Char)
    (h : ∀ c, l.head? = some c → p c = false) : l.dropWhile p = l := by
  cases l with
  | nil => rfl
  | cons x xs => rw [List.dropWhile_cons, h x rfl]; simp

theorem stripChars_eq_self (s : List Char) (h : noEdgeSpace s = true) :
    stripChars s = s := by
  unfold noEdgeSpace at h
  rw [Bool.and_eq_true] at h
  obtain ⟨h1, h2⟩ := h
  unfold stripChars
  rw [dropWhile_eq_self_of_head pyIsSpace s, dropWhile_eq_self_of_head pyIsSpace s.reverse,
    List.reverse_reverse]
  · intro c hc
    rw [List.head?_reverse] at hc
    rw [hc] at h2
    simpa using h2
  · intro c hc
    rw [hc] at h1
    simpa using h1

theorem mem_splitSentencesAux {c : Char} :
    ∀ (b : Bool) (acc l : List Char) (piece : List Char),
      piece ∈ splitSentencesAux b acc l → c ∈ piece → c ∈ acc ∨ c ∈ l := by
  intro b acc l
  induction l generalizing b acc with
  | nil =>
    intro piece hp hc
    simp only [splitSentencesAux, List.mem_singleton] at hp
    subst hp
    exact Or.inl (by simpa using hc)
  | cons x xs ih =>
    intro piece hp hc
    simp only [splitSentencesAux] at hp
    split at hp
    · rcases ih true acc piece hp hc with h | h
      · exact Or.inl h
      · exact Or.inr (List.mem_cons_of_mem x h)
    · split at hp
      · rcases List.mem_cons.mp hp with h | h
        · subst h
          rcases (by simpa using hc : c ∈ acc ∨ c = x) with h2 | h2
          · exact Or.inl h2
          · exact Or.inr (by simp [h2])
        · rcases ih true [] piece h hc with h2 | h2
          · simp at h2
          · exact Or.inr (List.mem_cons_of_mem x h2)
      · rcases ih false (x :: acc) piece hp hc with h2 | h2
        · rcases List.mem_cons.mp h2 with h3 | h3
          · exact Or.inr (by simp [h3])
          · exact Or.inl h3
        · exact Or.inr (List.mem_cons_of_mem x h2)

theorem splitSentences_good (t s : List Char) (h : s ∈ splitSentences t) :
    s ≠ [] ∧ noEdgeSpace s = true ∧ ∀ c ∈ s, c ∈ t := by
  unfold splitSentences at h
  have hmem := List.mem_of_mem_filter h
  have hne : ¬s.isEmpty = true := by
    have := List.of_mem_filter h
    simpa using this
  obtain ⟨piece, hpiece, rfl⟩ := List.mem_map.mp hmem
  refine ⟨by simpa [List.isEmpty_iff] using hne, stripChars_noEdgeSpace piece, ?_⟩
  intro c hc
  have := mem_splitSentencesAux false [] t piece hpiece (mem_stripChars hc)
  simpa using this

theorem joinSpace_mem {c : Char} :
    ∀ (buf : List (List Char)), c ∈ joinSpace buf → c = ' ' ∨ ∃ s ∈ buf, c ∈ s := by
  intro buf
  induction buf with
  | nil => simp [joinSpace]
  | cons x xs ih =>
    intro hc
    cases xs with
    | nil => exact Or.inr ⟨x, by simp, by simpa [joinSpace] using hc⟩
    | cons y ys =>
      rw [joinSpace_cons x (y :: ys) (by simp)] at hc
      rcases List.mem_append.mp hc with h | h
      · exact Or.inr ⟨x, by simp, h⟩
      · rcases List.mem_cons.mp h with h2 | h2
        · exact Or.inl h2
        · rcases ih h2 with h3 | ⟨s, hs, hcs⟩
          · exact Or.inl h3
          · exact Or.inr ⟨s, List.mem_cons_of_mem x hs, hcs⟩

theorem joinSpace_head? (x : List Char) (xs : List (List Char)) (hx : x ≠ []) :
    (joinSpace (x :: xs)).head? = x.head? := by
  cases xs with
  | nil => rfl
  | cons y ys =>
    rw [joinSpace_cons x (y :: ys) (by simp), List.head?_append]
    cases hh : x.head? with
    | none => exact absurd (List.head?_eq_none_iff.mp hh) hx
    | some c => rfl

theorem joinSpace_getLast? :
    ∀ (buf : List (List Char)), buf ≠ [] → (∀ s ∈ buf, s ≠ []) →
      ∃ s, buf.getLast? = some s ∧ (joinSpace buf).getLast? = s.getLast? := by
  intro buf
  induction buf with
  | nil => intro h; exact absurd rfl h
  | cons x xs ih =>
    intro _ hne
    cases xs with
    | nil => exact ⟨x, rfl, rfl⟩
    | cons y ys =>
      obtain ⟨s, hs1, hs2⟩ := ih (by simp) (fun u hu => hne u (List.mem_cons_of_mem x hu))
      have hsne : s ≠ [] :=
        hne s (List.mem_cons_of_mem x (List.mem_of_mem_getLast? hs1))
      have hjne : joinSpace (y :: ys) ≠ [] := by
        intro h0
        rw [h0] at hs2
        cases hlast : s.getLast? with
        | none => exact absurd (List.getLast?_eq_none_iff.mp hlast) hsne
        | some c => rw [hlast] at hs2; simp at hs2
      refine ⟨s, by rw [List.getLast?_cons_cons]; exact hs1, ?_⟩
      rw [joinSpace_cons x (y :: ys) (by simp),
        List.getLast?_append_of_ne_nil x (by simp),
        show (' ' :: joinSpace (y :: ys)) = [' '] ++ joinSpace (y :: ys) from rfl,
        List.getLast?_append_of_ne_nil [' '] hjne]
      exact hs2

theorem joinSpace_ne_nil (buf : List (List Char)) (hb : buf ≠ [])
    (hne : ∀ s ∈ buf, s ≠ []) : joinSpace buf ≠ [] := by
  cases buf with
  | nil => exact absurd rfl hb
  | cons x xs =>
    intro h0
    have hx : x ≠ [] := hne x (by simp)
    have := joinSpace_head? x xs hx
    rw [h0] at this
    cases hh : x.head? with
    | none => exact absurd (List.head?_eq_none_iff.mp hh) hx
    | some c => rw [hh] at this; simp at this

theorem joinSpace_noEdgeSpace (buf : List (List Char)) (hb : buf ≠ [])
    (hgood : ∀ s ∈ buf, s ≠ [] ∧ noEdgeSpace s = true) :
    noEdgeSpace (joinSpace buf) = true := by
  cases buf with
  | nil => exact absurd rfl hb
  | cons x xs =>
    unfold noEdgeSpace
    rw [Bool.and_eq_true]
    constructor
    · rw [joinSpace_head? x xs (hgood x (by simp)).1]
      have := (hgood x (by simp)).2
      unfold noEdgeSpace at this
      rw [Bool.and_eq_true] at this
      exact this.1
    · obtain ⟨s, hs1, hs2⟩ := joinSpace_getLast? (x :: xs) (by simp)
        (fun u hu => (hgood u hu).1)
      rw [hs2]
      have := (hgood s (List.mem_of_mem_getLast? hs1)).2
      unfold noEdgeSpace at this
      rw [Bool.and_eq_true] at this
      exact this.2

theorem splitOnNewline_of_not_mem (t : List Char) (h : '\n' ∉ t) :
    splitOnNewline t = [t] := by
  induction t with
  | nil => rfl
  | cons x xs ih =>
    have hx : ¬x = '\n' := fun h0 => h (by simp [h0])
    have hxs := ih (fun h0 => h (List.mem_cons_of_mem x h0))
    simp only [splitOnNewline, hx, if_false, hxs]

/-- On a newline-free string with no leading/trailing whitespace,
`_has_header` degenerates to: the whole text is shorter than 100
characters and does not end in `.`, `!` or `?`; the section title is then
the whole text. -/
theorem hasHeader_of_clean (t : List Char) (hnl : '\n' ∉ t)
    (hedge : noEdgeSpace t = true) :
    hasHeader t = (decide (t.length < 100) && !endsWithTerminal t) ∧
      extractSectionTitle t = if hasHeader t then some t else none := by
  have hsplit := splitOnNewline_of_not_mem t hnl
  have hstrip := stripChars_eq_self t hedge
  constructor
  · rw [hasHeader, hsplit]
    by_cases hlen : t.length < 100
    · simp [hlen, hstrip]
    · simp [hlen]
  · rw [extractSectionTitle]
    by_cases hh : hasHeader t = true
    · rw [if_pos hh, if_pos hh, hsplit]
      simpa using hstrip
    · rw [if_neg hh, if_neg hh]

theorem chunkLoop_texts (n : Nat) (sents cur : List (List Char))
    (len idx pos : Nat) :
    ∀ ch ∈ chunkLoop n sents cur len idx pos,
      ∃ buf, buf ≠ [] ∧ (∀ s ∈ buf, s ∈ sents ∨ s ∈ cur) ∧
        ch.chunk_text = joinSpace buf := by
  induction sents, cur, len, idx, pos using chunkLoop.induct n with
  | case1 cur len idx pos h => simp [chunkLoop, h]
  | case2 cur len idx pos h =>
    intro ch hch
    simp only [chunkLoop, h, Bool.false_eq_true, if_false, List.mem_singleton] at hch
    subst hch
    exact ⟨cur, by simpa [List.isEmpty_iff] using h, fun s hs => Or.inr hs, rfl⟩
  | case3 s rest cur len idx pos hcond c ncur ih =>
    intro ch hch
    have hcur : cur ≠ [] := by
      intro hc; simp [hc] at hcond
    simp only [chunkLoop, hcond, if_true, List.mem_cons] at hch
    rcases hch with rfl | hch
    · exact ⟨cur, hcur, fun u hu => Or.inr hu, rfl⟩
    · obtain ⟨buf, hb, hmem, htext⟩ := ih ch hch
      refine ⟨buf, hb, fun u hu => ?_, htext⟩
      rcases hmem u hu with h | h
      · exact Or.inl (List.mem_cons_of_mem s h)
      · rcases List.mem_append.mp h with h2 | h2
        · have : (overlapOf cur).Sublist cur := by
            rw [overlapOf_eq_drop]; exact List.drop_sublist _ _
          exact Or.inr (this.mem h2)
        · exact Or.inl (by simp at h2; simp [h2])
  | case4 s rest cur len idx pos hcond ih =>
    intro ch hch
    simp only [chunkLoop, hcond, if_false] at hch
    obtain ⟨buf, hb, hmem, htext⟩ := ih ch hch
    refine ⟨buf, hb, fun u hu => ?_, htext⟩
    rcases hmem u hu with h | h
    · exact Or.inl (List.mem_cons_of_mem s h)
    · rcases List.mem_append.mp h with h2 | h2
      · exact Or.inr h2
      · exact Or.inl (by simp at h2; simp [h2])

theorem chunkLoop_header_fields (n : Nat) (sents cur : List (List Char))
    (len idx pos : Nat) :
    ∀ c ∈ chunkLoop n sents cur len idx pos,
      c.has_header = hasHeader c.chunk_text ∧
        c.section_title = extractSectionTitle c.chunk_text := by
  induction sents, cur, len, idx, pos using chunkLoop.induct n with
  | case1 cur len idx pos h => simp [chunkLoop, h]
  | case2 cur len idx pos h => simp [chunkLoop, h, mkChunk]
  | case3 s rest cur len idx pos hcond c ncur ih =>
    simp only [chunkLoop, hcond, if_true, List.mem_cons]
    rintro x (rfl | hx)
    · exact ⟨rfl, rfl⟩
    · exact ih x hx
  | case4 s rest cur len idx pos hcond ih =>
    simpa only [chunkLoop, hcond, if_false] using ih

/-- C10: every chunk text produced by `chunk_text` contains no newline
character; consequently `has_header` holds exactly when the entire chunk
text is shorter than 100 characters and does not end with `.`, `!` or
`?`, and in that case `section_title` is the entire chunk text. -/
theorem C10_header_on_newline_free_chunks (text : List Char) (c : Chunk)
    (hc : c ∈ chunk_text 512 text) :
    '\n' ∉ c.chunk_text ∧
      (c.has_header = true ↔
        (c.chunk_text.length < 100 ∧ endsWithTerminal c.chunk_text = false)) ∧
      (c.has_header = true → c.section_title = some c.chunk_text) := by
  obtain ⟨buf, hb, hmem, htext⟩ :=
    chunkLoop_texts 512 (splitSentences (cleanText text)) [] 0 0 0 c hc
  have hsent : ∀ s ∈ buf, s ∈ splitSentences (cleanText text) := by
    intro s hs
    rcases hmem s hs with h | h
    · exact h
    · simp at h
  have hgood : ∀ s ∈ buf, s ≠ [] ∧ noEdgeSpace s = true := by
    intro s hs
    have := splitSentences_good (cleanText text) s (hsent s hs)
    exact ⟨this.1, this.2.1⟩
  have hnl : '\n' ∉ c.chunk_text := by
    rw [htext]
    intro hmem2
    rcases joinSpace_mem buf hmem2 with h | ⟨s, hs, hcs⟩
    · exact absurd h (by decide)
    · exact cleanText_no_newline text
        ((splitSentences_good (cleanText text) s (hsent s hs)).2.2 '\n' hcs)
  have hedge : noEdgeSpace c.chunk_text = true := by
    rw [htext]; exact joinSpace_noEdgeSpace buf hb hgood
  obtain ⟨hhh, hst⟩ := hasHeader_of_clean c.chunk_text hnl hedge
  have hfields := chunkLoop_header_fields 512 (splitSentences (cleanText text))
    [] 0 0 0 c hc
  refine ⟨hnl, ?_, ?_⟩
  · rw [hfields.1, hhh]
    constructor
    · intro h
      rw [Bool.and_eq_true] at h
      exact ⟨by simpa using h.1, by simpa using h.2⟩
    · intro ⟨h1, h2⟩
      rw [Bool.and_eq_true]
      exact ⟨by simpa using h1, by simp [h2]⟩
  · intro hh
    rw [hfields.2, hst, ← hfields.1, hh, if_pos rfl]

/-- Witness for C10 at the concrete input `"Overview"`, whose single chunk
is a header-only chunk. -/
theorem C10_header_on_newline_free_chunks_witness :
    mkChunk 0 ["Overview".data] 0 ∈ chunk_text 512 "Overview".data ∧
      ('\n' ∉ (mkChunk 0 ["Overview".data] 0).chunk_text ∧
        ((mkChunk 0 ["Overview".data] 0).has_header = true ↔
          ((mkChunk 0 ["Overview".data] 0).chunk_text.length < 100 ∧
            endsWithTerminal (mkChunk 0 ["Overview".data] 0).chunk_text = false)) ∧
        ((mkChunk 0 ["Overview".data] 0).has_header = true →
          (mkChunk 0 ["Overview".data] 0).section_title =
            some (mkChunk 0 ["Overview".data] 0).chunk_text)) :=
  ⟨by decide, C10_header_on_newline_free_chunks "Overview".data
    (mkChunk 0 ["Overview".data] 0) (by decide)⟩

/-- One entry of `TaggingService.framework_keywords`: framework id,
display name, trigger phrases. -/
structure Framework where
  fid : Nat
  name : String
  phrases : List (List Char)
  deriving Repr, DecidableEq

/-- The fixed compliance-framework table of `TaggingService.__init__`,
in Python dict iteration (= insertion) order. -/
def framework_keywords : List Framework :=
  [⟨1, "SOC 2",
    ["soc 2".data, "service organization control".data, "trust services".data,
      "security".data, "availability".data, "confidentiality".data]⟩,
   ⟨2, "ISO 27001",
    ["iso 27001".data, "information security".data, "isms".data,
      "risk management".data, "security controls".data]⟩,
   ⟨3, "GDPR",
    ["gdpr".data, "data protection".data, "privacy".data, "personal data".data,
      "consent".data, "data subject".data]⟩,
   ⟨4, "HIPAA",
    ["hipaa".data, "phi".data, "protected health information".data,
      "healthcare".data, "medical records".data]⟩,
   ⟨5, "PCI DSS",
    ["pci dss".data, "payment card".data, "cardholder data".data,
      "payment security".data]⟩]

/-- The inner loop of `TaggingService.tag_chunk` for one framework:
`for keyword in ...: if keyword in text_lower: ...; break` records the
framework iff some trigger phrase is a literal substring (`<:+:`) of the
lower-cased text. -/
def frameworkMatches (text_lower : List Char) (f : Framework) : Bool :=
  f.phrases.any (fun k => decide (k <:+: text_lower))

/-- The stop-word list of `TaggingService._extract_keywords`. -/
def stop_words : List (List Char) :=
  ["the".data, "a".data, "an".data, "and".data, "or".data, "but".data,
   "in".data, "on".data, "at".data, "to".data, "for".data, "of".data,
   "with".data, "by".data, "from".data, "as".data, "is".data, "was".data,
   "are".data, "were".data, "be".data, "been".data, "have".data, "has".data,
   "had".data, "do".data, "does".data, "did".data, "will".data, "would".data,
   "should".data, "could".data, "may".data, "might".data, "must".data,
   "can".data, "this".data, "that".data, "these".data, "those".data,
   "it".data, "its".data, "they".data, "them".data, "their".data]

def isLowerAlpha (c : Char) : Bool := 'a' ≤ c && c ≤ 'z'

/-- Python `\w` (ASCII reading), used for the `\b` boundaries. -/
def isPyWordChar (c : Char) : Bool := c.isAlphanum || c = '_'

/-- `re.findall(r'\b[a-z]{3,}\b', text)` compiled to a state machine.
Mode 0: at a word boundary; mode 1: inside a candidate `[a-z]` run that
started at a boundary (`run` holds it reversed); mode 2: inside a word
run that cannot match (wrong start or a non-`[a-z]` word character).  A
candidate run is emitted when it ends at a boundary with length ≥ 3. -/
def findWordsAux : Nat → List Char → List Char → List (List Char)
  | mode, run, [] =>
    if mode = 1 then (if run.length ≥ 3 then [run.reverse] else []) else []
  | mode, run, c :: cs =>
    if mode = 1 then
      if isLowerAlpha c then findWordsAux 1 (c :: run) cs
      else if isPyWordChar c then findWordsAux 2 [] cs
      else (if run.length ≥ 3 then [run.reverse] else []) ++ findWordsAux 0 [] cs
    else if mode = 2 then
      if isPyWordChar c then findWordsAux 2 [] cs else findWordsAux 0 [] cs
    else
      if isLowerAlpha c then findWordsAux 1 [c] cs
      else if isPyWordChar c then findWordsAux 2 [] cs
      else findWordsAux 0 [] cs

def pyFindWords (t : List Char) : List (List Char) := findWordsAux 0 [] t

/-- The frequency dictionary of `_extract_keywords`, as an
insertion-ordered association list (Python dict semantics). -/
def word_counts (ws : List (List Char)) : List (List Char × Nat) :=
  ws.foldl
    (fun acc w =>
      if acc.any (fun p => p.1 = w) then
        acc.map (fun p => if p.1 = w then (p.1, p.2 + 1) else p)
      else acc ++ [(w, 1)])
    []

/-- `TaggingService._extract_keywords` with the default `max_keywords=10`:
lower-case, find alphabetic words of length ≥ 3, drop stop words, count,
stable-sort by descending frequency, return the top ten words. -/
def extract_keywords (text : List Char) : List (List Char) :=
  let words := (pyFindWords (text.map Char.toLower)).filter
    (fun w => decide (w ∉ stop_words))
  let counts := word_counts words
  ((List.insertionSort (fun a b : List Char × Nat => b.2 ≤ a.2) counts).take 10).map
    Prod.fst

/-- The result dictionary of `TaggingService.tag_chunk`. -/
structure TagResult where
  compliance_framework_id : Option Nat
  compliance_tags : List String
  keywords : List (List Char)
  deriving Repr, DecidableEq

/-- `TaggingService.tag_chunk`: lower-case once, collect matching
frameworks in table order, primary framework is the first match,
tags are the de-duplicated display names (`list(set(...))`). -/
def tag_chunk (chunk_text : List Char) : TagResult :=
  let text_lower := chunk_text.map Char.toLower
  let matching := framework_keywords.filter (frameworkMatches text_lower)
  { compliance_framework_id := (matching.map Framework.fid).head?
    compliance_tags := (matching.map Framework.name).dedup
    keywords := extract_keywords chunk_text }

theorem head?_filter_eq_find? {α : Type} (p : α → Bool) (l : List α) :
    (l.filter p).head? = l.find? p := by
  induction l with
  | nil => rfl
  | cons x xs ih =>
    by_cases hx : p x = true
    · simp [List.filter_cons, List.find?_cons, hx]
    · simp only [List.filter_cons, List.find?_cons, hx]
      simp only [Bool.false_eq_true, if_false]
      exact ih

/-- C9: `tag_chunk` records a framework as matched exactly when one of its
trigger phrases is a literal substring of the lower-cased chunk text;
the primary `compliance_framework_id` is the id of the first matching
framework in table iteration order (`find?`), or `none` when no framework
matches; and `compliance_tags` holds exactly the matched frameworks'
display names, without duplicates. -/
theorem C9_tag_chunk_matching (t : List Char) :
    (∀ f ∈ framework_keywords,
      f ∈ framework_keywords.filter (frameworkMatches (t.map Char.toLower)) ↔
        ∃ k ∈ f.phrases, k <:+: t.map Char.toLower) ∧
      (tag_chunk t).compliance_framework_id =
        (framework_keywords.find? (frameworkMatches (t.map Char.toLower))).map
          Framework.fid ∧
      ((tag_chunk t).compliance_framework_id = none ↔
        framework_keywords.filter (frameworkMatches (t.map Char.toLower)) = []) ∧
      (∀ s, s ∈ (tag_chunk t).compliance_tags ↔
        ∃ f ∈ framework_keywords.filter (frameworkMatches (t.map Char.toLower)),
          f.name = s) ∧
      (tag_chunk t).compliance_tags.Nodup := by
  refine ⟨?_, ?_, ?_, ?_, ?_⟩
  · intro f hf
    simp only [List.mem_filter, frameworkMatches, List.any_eq_true,
      decide_eq_true_eq]
    exact ⟨fun h => h.2, fun h => ⟨hf, h⟩⟩
  · show ((framework_keywords.filter _).map Framework.fid).head? = _
    rw [List.head?_map, head?_filter_eq_find?]
  · show ((framework_keywords.filter _).map Framework.fid).head? = none ↔ _
    rw [List.head?_map]
    cases h : framework_keywords.filter (frameworkMatches (t.map Char.toLower)) with
    | nil => simp
    | cons f fs => simp
  · intro s
    show s ∈ ((framework_keywords.filter _).map Framework.name).dedup ↔ _
    rw [List.mem_dedup, List.mem_map]
  · exact List.nodup_dedup _

/-- Cache key of `EmbeddingService._compute_cache_key`: the SHA-256 digest
of `f"{text}::{normalize}"`.  The format is injective in `(text,
normalize)` (the key always ends in `::True` or `::False`), and digest
collisions are not modelled, so the key is modelled as the pair itself. -/
abbrev CKey := List Char × Bool

/-- An embedding vector (`List[float]`), modelled with rational entries. -/
abbrev Vec := List ℚ

/-- The settings consulted by the cache (`settings.cache_enabled`,
`settings.cache_size`; the config validates `cache_size ≥ 0`). -/
structure CacheSettings where
  cache_enabled : Bool
  cache_size : Nat
  deriving Repr, DecidableEq

/-- The mutable class state of `EmbeddingService`: the insertion-ordered
cache dict and the four counters. -/
structure GenState where
  cache : List (CKey × Vec)
  cache_hits : Nat
  cache_misses : Nat
  total_requests : Nat
  total_embeddings : Nat
  deriving Repr, DecidableEq

/-- Python dict read `self._cache[key]` / `key in self._cache`. -/
def dictGet (c : List (CKey × Vec)) (k : CKey) : Option Vec :=
  (c.find? (fun p => decide (p.1 = k))).map Prod.snd

/-- Python dict write `self._cache[key] = v`: an existing key keeps its
position; a new key is appended (insertion order). -/
def dictSet (c : List (CKey × Vec)) (k : CKey) (v : Vec) : List (CKey × Vec) :=
  if c.any (fun p => decide (p.1 = k)) then
    c.map (fun p => if p.1 = k then (k, v) else p)
  else c ++ [(k, v)]

/-- `EmbeddingService._get_from_cache`: `None` without touching the
counters when caching is disabled; otherwise a hit bumps `_cache_hits`
and a miss bumps `_cache_misses`. -/
def getFromCache (sett : CacheSettings) (s : GenState) (text : List Char)
    (normalize : Bool) : Option Vec × GenState :=
  if !sett.cache_enabled then (none, s)
  else
    match dictGet s.cache (text, normalize) with
    | some v => (some v, { s with cache_hits := s.cache_hits + 1 })
    | none => (none, { s with cache_misses := s.cache_misses + 1 })

/-- `EmbeddingService._add_to_cache`: when the cache is at capacity the
first (oldest-inserted) entry is deleted, then the key is written.
`next(iter(self._cache))` on an empty dict raises `StopIteration`
(reachable when `cache_size = 0`), modelled as `none`. -/
def addToCache (sett : CacheSettings) (c : List (CKey × Vec))
    (text : List Char) (normalize : Bool) (emb : Vec) :
    Option (List (CKey × Vec)) :=
  if !sett.cache_enabled then some c
  else
    let evicted : Option (List (CKey × Vec)) :=
      if c.length ≥ sett.cache_size then
        match c with
        | [] => none
        | _ :: rest => some rest
      else some c
    evicted.map (fun c2 => dictSet c2 (text, normalize) emb)

/-- The first loop of `EmbeddingService.generate_embeddings`
(`for idx, text in enumerate(texts)`): build the positional result list
with `None` placeholders and collect `texts_to_generate` as
`(index, text)` pairs, threading the counter state. -/
def scanCache (sett : CacheSettings) :
    GenState → Nat → List (List Char) → Bool →
    List (Option Vec) × List (Nat × List Char) × GenState
  | s, _, [], _ => ([], [], s)
  | s, i, t :: ts, n =>
    let r := getFromCache sett s t n
    let tail := scanCache sett r.2 (i + 1) ts n
    match r.1 with
    | some v => (some v :: tail.1, tail.2.1, tail.2.2)
    | none => (none :: tail.1, (i, t) :: tail.2.1, tail.2.2)

/-- The generation loop of `EmbeddingService.generate_embeddings`:
`model.encode` produces one vector per cache-miss text (the deterministic
`model` function; `batch_size` only controls internal batching of the
encode call and does not change its output), and each generated vector is
written into the result list at its original position and inserted into
the cache.  An error from `_add_to_cache` propagates, leaving the state
as it was at the raise. -/
def writeBack (sett : CacheSettings) (model : List Char → Bool → Vec)
    (n : Bool) :
    List (Option Vec) → GenState → List (Nat × List Char) →
    Except GenState (List (Option Vec) × GenState)
  | embs, s, [] => .ok (embs, s)
  | embs, s, (i, t) :: ms =>
    match addToCache sett s.cache t n (model t n) with
    | none => .error s
    | some c2 =>
      writeBack sett model n (embs.set i (some (model t n)))
        { s with cache := c2 } ms

/-- `EmbeddingService.generate_embeddings` (with the model loaded; the
elapsed-time component of the Python return value is not modelled):
bump the request counters, look every text up in the cache, generate the
misses, and return `[e for e in embeddings if e is not None]`. -/
def bumpCounters (s : GenState) (k : Nat) : GenState :=
  { s with
    total_requests := s.total_requests + 1
    total_embeddings := s.total_embeddings + k }

def generate_embeddings (sett : CacheSettings) (model : List Char → Bool → Vec)
    (s : GenState) (texts : List (List Char)) (normalize : Bool) :
    Except GenState (List Vec × GenState) :=
  match writeBack sett model normalize
      (scanCache sett (bumpCounters s texts.length) 0 texts normalize).1
      (scanCache sett (bumpCounters s texts.length) 0 texts normalize).2.2
      (scanCache sett (bumpCounters s texts.length) 0 texts normalize).2.1 with
  | .error e => .error e
  | .ok (embs2, s3) => .ok (embs2.filterMap id, s3)

/-- The cache value a text sees at the start of a call (when caching is
enabled). -/
def lookupC (sett : CacheSettings) (cache : List (CKey × Vec))
    (t : List Char) (n : Bool) : Option Vec :=
  if sett.cache_enabled then dictGet cache (t, n) else none

theorem getFromCache_fst (sett : CacheSettings) (s : GenState)
    (t : List Char) (n : Bool) :
    (getFromCache sett s t n).1 = lookupC sett s.cache t n := by
  unfold getFromCache lookupC
  by_cases he : sett.cache_enabled = true
  · simp only [he, Bool.not_true, Bool.false_eq_true, if_false, if_true]
    cases dictGet s.cache (t, n) <;> rfl
  · simp only [Bool.not_eq_true] at he
    simp [he]

theorem getFromCache_cache (sett : CacheSettings) (s : GenState)
    (t : List Char) (n : Bool) :
    (getFromCache sett s t n).2.cache = s.cache := by
  unfold getFromCache
  by_cases he : sett.cache_enabled = true
  · simp only [he, Bool.not_true, Bool.false_eq_true, if_false]
    cases dictGet s.cache (t, n) <;> rfl
  · simp only [Bool.not_eq_true] at he
    simp [he]

theorem scanCache_cache (sett : CacheSettings) (ts : List (List Char)) :
    ∀ (s : GenState) (i : Nat) (n : Bool),
      (scanCache sett s i ts n).2.2.cache = s.cache := by
  induction ts with
  | nil => intro s i n; rfl
  | cons t ts ih =>
    intro s i n
    show (match (getFromCache sett s t n).1 with
      | some v => _
      | none => _ : List (Option Vec) × List (Nat × List Char) × GenState).2.2.cache = s.cache
    cases (getFromCache sett s t n).1 with
    | some v =>
      simpa using (ih (getFromCache sett s t n).2 (i + 1) n).trans
        (getFromCache_cache sett s t n)
    | none =>
      simpa using (ih (getFromCache sett s t n).2 (i + 1) n).trans
        (getFromCache_cache sett s t n)

theorem scanCache_embs (sett : CacheSettings) (ts : List (List Char)) :
    ∀ (s : GenState) (i : Nat) (n : Bool),
      (scanCache sett s i ts n).1 = ts.map (fun t => lookupC sett s.cache t n) := by
  induction ts with
  | nil => intro s i n; rfl
  | cons t ts ih =>
    intro s i n
    have h1 := getFromCache_fst sett s t n
    have h2 := getFromCache_cache sett s t n
    show (match (getFromCache sett s t n).1 with
      | some v => (some v :: _, _, _)
      | none => (none :: _, _, _) : List (Option Vec) × List (Nat × List Char) × GenState).1 = _
    cases hr : (getFromCache sett s t n).1 with
    | some v =>
      simp only [List.map_cons]
      rw [← h1, hr]
      have := ih (getFromCache sett s t n).2 (i + 1) n
      rw [h2] at this
      simpa using this
    | none =>
      simp only [List.map_cons]
      rw [← h1, hr]
      have := ih (getFromCache sett s t n).2 (i + 1) n
      rw [h2] at this
      simpa using this

/-- The `(index, text)` pairs that `scanCache` collects, computed from
the initial cache contents. -/
def mkMisses (sett : CacheSettings) (cache : List (CKey × Vec)) (n : Bool) :
    Nat → List (List Char) → List (Nat × List Char)
  | _, [] => []
  | i, t :: ts =>
    match lookupC sett cache t n with
    | some _ => mkMisses sett cache n (i + 1) ts
    | none => (i, t) :: mkMisses sett cache n (i + 1) ts

theorem scanCache_misses (sett : CacheSettings) (ts : List (List Char)) :
    ∀ (s : GenState) (i : Nat) (n : Bool),
      (scanCache sett s i ts n).2.1 = mkMisses sett s.cache n i ts := by
  induction ts with
  | nil => intro s i n; rfl
  | cons t ts ih =>
    intro s i n
    have h1 := getFromCache_fst sett s t n
    have h2 := getFromCache_cache sett s t n
    show (match (getFromCache sett s t n).1 with
      | some v => (_, _, _)
      | none => (_, (i, t) :: _, _) : List (Option Vec) × List (Nat × List Char) × GenState).2.1 = _
    have hrec := ih (getFromCache sett s t n).2 (i + 1) n
    rw [h2] at hrec
    cases hr : (getFromCache sett s t n).1 with
    | some v =>
      rw [hr] at h1
      simp only [mkMisses, ← h1]
      simpa using hrec
    | none =>
      rw [hr] at h1
      simp only [mkMisses, ← h1]
      simpa using hrec

theorem mkMisses_mem (sett : CacheSettings) (cache : List (CKey × Vec))
    (n : Bool) (ts : List (List Char)) :
    ∀ (i j : Nat) (t : List Char), (j, t) ∈ mkMisses sett cache n i ts →
      i ≤ j ∧ ts[j - i]? = some t ∧ lookupC sett cache t n = none := by
  induction ts with
  | nil => intro i j t h; simp [mkMisses] at h
  | cons u ts ih =>
    intro i j t h
    unfold mkMisses at h
    cases hl : lookupC sett cache u n with
    | some v =>
      rw [hl] at h
      obtain ⟨h1, h2, h3⟩ := ih (i + 1) j t h
      refine ⟨by omega, ?_, h3⟩
      rw [show j - i = (j - (i + 1)) + 1 by omega]
      simpa using h2
    | none =>
      rw [hl] at h
      rcases List.mem_cons.mp h with h0 | h0
      · rw [Prod.mk.injEq] at h0
        obtain ⟨rfl, rfl⟩ := h0
        exact ⟨le_refl _, by simp, hl⟩
      · obtain ⟨h1, h2, h3⟩ := ih (i + 1) j t h0
        refine ⟨by omega, ?_, h3⟩
        rw [show j - i = (j - (i + 1)) + 1 by omega]
        simpa using h2

theorem mkMisses_complete (sett : CacheSettings) (cache : List (CKey × Vec))
    (n : Bool) (ts : List (List Char)) :
    ∀ (i j : Nat) (t : List Char), ts[j]? = some t →
      lookupC sett cache t n = none → (i + j, t) ∈ mkMisses sett cache n i ts := by
  induction ts with
  | nil => intro i j t h; simp at h
  | cons u ts ih =>
    intro i j t h hl
    unfold mkMisses
    cases j with
    | zero =>
      simp only [List.getElem?_cons_zero, Option.some.injEq] at h
      subst h
      rw [hl]
      simp
    | succ j =>
      simp only [List.getElem?_cons_succ] at h
      have := ih (i + 1) j t h hl
      rw [show i + (j + 1) = (i + 1) + j by omega]
      cases hu : lookupC sett cache u n with
      | some v => exact this
      | none => exact List.mem_cons_of_mem _ this

theorem mkMisses_indices_lt (sett : CacheSettings) (cache : List (CKey × Vec))
    (n : Bool) (ts : List (List Char)) :
    ∀ (i j : Nat) (t : List Char), (j, t) ∈ mkMisses sett cache n i ts →
      j < i + ts.length := by
  intro i j t h
  obtain ⟨h1, h2, _⟩ := mkMisses_mem sett cache n ts i j t h
  obtain ⟨hlt, _⟩ := List.getElem?_eq_some.mp h2
  omega

/-- The accumulated effect of the write-back loop on the positional
result list. -/
def setAll (model : List Char → Bool → Vec) (n : Bool)
    (ms : List (Nat × List Char)) (embs : List (Option Vec)) :
    List (Option Vec) :=
  ms.foldl (fun e p => e.set p.1 (some (model p.2 n))) embs

theorem writeBack_ok_embs (sett : CacheSettings)
    (model : List Char → Bool → Vec) (n : Bool) (ms : List (Nat × List Char)) :
    ∀ (embs : List (Option Vec)) (s : GenState) (out : List (Option Vec))
      (s3 : GenState), writeBack sett model n embs s ms = .ok (out, s3) →
      out = setAll model n ms embs := by
  induction ms with
  | nil =>
    intro embs s out s3 h
    simp only [writeBack, Except.ok.injEq, Prod.mk.injEq] at h
    exact h.1.symm
  | cons p ms ih =>
    intro embs s out s3 h
    obtain ⟨i, t⟩ := p
    unfold writeBack at h
    cases ha : addToCache sett s.cache t n (model t n) with
    | none => rw [ha] at h; exact absurd h (by simp)
    | some c2 =>
      rw [ha] at h
      exact ih _ _ out s3 h

theorem setAll_getElem?_of_not_mem (model : List Char → Bool → Vec) (n : Bool)
    (ms : List (Nat × List Char)) :
    ∀ (embs : List (Option Vec)) (j : Nat), (∀ t, (j, t) ∉ ms) →
      (setAll model n ms embs)[j]? = embs[j]? := by
  induction ms with
  | nil => intro embs j _; rfl
  | cons p ms ih =>
    intro embs j hj
    obtain ⟨i, t⟩ := p
    have hij : i ≠ j := by
      intro h0
      exact hj t (by simp [h0])
    unfold setAll
    rw [List.foldl_cons]
    have := ih (embs.set i (some (model t n))) j (fun u hu => hj u (List.mem_cons_of_mem _ hu))
    rw [setAll] at this
    rw [this, List.getElem?_set]
    simp [hij]

theorem setAll_getElem?_of_mem (model : List Char → Bool → Vec) (n : Bool)
    (ms : List (Nat × List Char)) :
    ∀ (embs : List (Option Vec)) (j : Nat) (t : List Char),
      (ms.map Prod.fst).Nodup → (j, t) ∈ ms → j < embs.length →
      (setAll model n ms embs)[j]? = some (some (model t n)) := by
  induction ms with
  | nil => intro embs j t _ h; simp at h
  | cons p ms ih =>
    intro embs j t hnd hmem hlen
    obtain ⟨i, u⟩ := p
    simp only [List.map_cons, List.nodup_cons] at hnd
    unfold setAll
    rw [List.foldl_cons]
    rcases List.mem_cons.mp hmem with h0 | h0
    · rw [Prod.mk.injEq] at h0
      obtain ⟨rfl, rfl⟩ := h0
      have hnot : ∀ w, (j, w) ∉ ms := by
        intro w hw
        exact hnd.1 (List.mem_map.mpr ⟨(j, w), hw, rfl⟩)
      have := setAll_getElem?_of_not_mem model n ms (embs.set j (some (model t n))) j hnot
      rw [setAll] at this
      rw [this, List.getElem?_set]
      simp [hlen]
    · have hij : i ≠ j := by
        intro h1
        subst h1
        exact hnd.1 (List.mem_map.mpr ⟨(i, t), h0, rfl⟩)
      have := ih (embs.set i (some (model u n))) j t hnd.2 h0 (by simpa using hlen)
      rw [setAll] at this
      exact this

theorem mkMisses_indices_nodup (sett : CacheSettings)
    (cache : List (CKey × Vec)) (n : Bool) (ts : List (List Char)) :
    ∀ (i : Nat), ((mkMisses sett cache n i ts).map Prod.fst).Nodup := by
  induction ts with
  | nil => intro i; simp [mkMisses]
  | cons u ts ih =>
    intro i
    unfold mkMisses
    cases hu : lookupC sett cache u n with
    | some v => exact ih (i + 1)
    | none =>
      simp only [List.map_cons, List.nodup_cons]
      refine ⟨?_, ih (i + 1)⟩
      intro hmem
      obtain ⟨⟨j, t⟩, hjt, hj⟩ := List.mem_map.mp hmem
      simp only at hj
      obtain ⟨h1, _, _⟩ := mkMisses_mem sett cache n ts (i + 1) j t hjt
      omega

theorem setAll_length (model : List Char → Bool → Vec) (n : Bool)
    (ms : List (Nat × List Char)) :
    ∀ (embs : List (Option Vec)), (setAll model n ms embs).length = embs.length := by
  induction ms with
  | nil => intro embs; rfl
  | cons p ms ih =>
    intro embs
    unfold setAll
    rw [List.foldl_cons]
    have := ih (embs.set p.1 (some (model p.2 n)))
    rw [setAll] at this
    simpa using this

/-- C2: whenever `generate_embeddings` returns, the returned list is
aligned index-for-index with the input list, in the original input order:
position `i` holds the cached vector of `texts[i]` when that text was a
cache hit at call start, and the freshly generated vector `model texts[i]`
otherwise — also when hits and misses are mixed in one call. -/
theorem C2_generate_embeddings_order (sett : CacheSettings)
    (model : List Char → Bool → Vec) (s : GenState) (texts : List (List Char))
    (normalize : Bool) (out : List Vec) (s2 : GenState)
    (h : generate_embeddings sett model s texts normalize = .ok (out, s2)) :
    out = texts.map (fun t =>
      (lookupC sett s.cache t normalize).getD (model t normalize)) := by
  unfold generate_embeddings at h
  set s1 : GenState := bumpCounters s texts.length with hs1
  have hs1c : s1.cache = s.cache := rfl
  cases hw : writeBack sett model normalize (scanCache sett s1 0 texts normalize).1
      (scanCache sett s1 0 texts normalize).2.2
      (scanCache sett s1 0 texts normalize).2.1 with
  | error e => rw [hw] at h; exact absurd h (by simp)
  | ok r =>
    obtain ⟨embs2, s3⟩ := r
    rw [hw] at h
    simp only [Except.ok.injEq, Prod.mk.injEq] at h
    obtain ⟨hout, _⟩ := h
    have hembs := scanCache_embs sett texts s1 0 normalize
    have hmiss := scanCache_misses sett texts s1 0 normalize
    rw [hs1c] at hembs hmiss
    have hset := writeBack_ok_embs sett model normalize
      (scanCache sett s1 0 texts normalize).2.1
      (scanCache sett s1 0 texts normalize).1
      (scanCache sett s1 0 texts normalize).2.2 embs2 s3 hw
    rw [hembs, hmiss] at hset
    have hembs2 : embs2 = texts.map (fun t =>
        some ((lookupC sett s.cache t normalize).getD (model t normalize))) := by
      apply List.ext_getElem?
      intro j
      rw [hset]
      cases ht : texts[j]? with
      | none =>
        have hj : texts.length ≤ j := by
          by_contra hlt
          push_neg at hlt
          rw [List.getElem?_eq_getElem hlt] at ht
          exact absurd ht (by simp)
        rw [List.getElem?_eq_none (by rw [setAll_length, List.length_map]; exact hj),
          List.getElem?_eq_none (by rw [List.length_map]; exact hj)]
      | some tj =>
        have hjlt : j < texts.length := by
          obtain ⟨hlt, _⟩ := List.getElem?_eq_some.mp ht
          exact hlt
        cases hl : lookupC sett s.cache tj normalize with
        | some v =>
          have hnot : ∀ u, (j, u) ∉
              mkMisses sett s.cache normalize 0 texts := by
            intro u hu
            obtain ⟨_, h2, h3⟩ := mkMisses_mem sett s.cache normalize texts 0 j u hu
            rw [Nat.sub_zero, ht] at h2
            obtain rfl : tj = u := by injection h2
            rw [hl] at h3
            exact absurd h3 (by simp)
          rw [setAll_getElem?_of_not_mem model normalize _ _ j hnot,
            List.getElem?_map, ht, List.getElem?_map, ht]
          simp [hl]
        | none =>
          have hmem : (j, tj) ∈ mkMisses sett s.cache normalize 0 texts := by
            have := mkMisses_complete sett s.cache normalize texts 0 j tj ht hl
            simpa using this
          rw [setAll_getElem?_of_mem model normalize _ _ j tj
            (mkMisses_indices_nodup sett s.cache normalize texts 0) hmem
            (by rw [List.length_map]; exact hjlt),
            List.getElem?_map, ht]
          simp [hl]
    rw [← hout, hembs2, List.filterMap_map]
    exact List.filterMap_eq_map_iff_forall_eq_some.mpr fun x => congrFun rfl

/-- Witness for C2: inputs `[a, b, c]` with `a` and `c` cached and `b`
not, returning `[vec(a), vec(b), vec(c)]` in input order. -/
theorem C2_generate_embeddings_order_witness :
    generate_embeddings ⟨true, 10⟩ (fun t _ => [(t.length : ℚ)])
        ⟨[(("a".data, true), [5]), (("c".data, true), [7])], 0, 0, 0, 0⟩
        ["a".data, "b".data, "c".data] true =
      .ok ([[5], [1], [7]],
        ⟨[(("a".data, true), [5]), (("c".data, true), [7]), (("b".data, true), [1])],
          2, 1, 1, 3⟩) ∧
      ([[5], [1], [7]] : List Vec) =
        ["a".data, "b".data, "c".data].map (fun t =>
          (lookupC ⟨true, 10⟩ [(("a".data, true), [5]), (("c".data, true), [7])]
            t true).getD ((fun t _ => [(t.length : ℚ)] : List Char → Bool → Vec) t true)) :=
  ⟨rfl, C2_generate_embeddings_order ⟨true, 10⟩ (fun t _ => [(t.length : ℚ)])
    ⟨[(("a".data, true), [5]), (("c".data, true), [7])], 0, 0, 0, 0⟩
    ["a".data, "b".data, "c".data] true [[5], [1], [7]]
    ⟨[(("a".data, true), [5]), (("c".data, true), [7]), (("b".data, true), [1])],
      2, 1, 1, 3⟩ rfl⟩

theorem dictGet_map_update (c : List (CKey × Vec)) (k : CKey) (v : Vec) :
    dictGet (c.map (fun p => if p.1 = k then (k, v) else p)) k =
      (if c.any (fun p => decide (p.1 = k)) = true then some v else dictGet c k) := by
  induction c with
  | nil => simp [dictGet]
  | cons p ps ih =>
    by_cases hp : p.1 = k
    · simp [dictGet, List.find?_cons, hp]
    · have e1 : dictGet ((p :: ps).map (fun p => if p.1 = k then (k, v) else p)) k =
          dictGet (ps.map (fun p => if p.1 = k then (k, v) else p)) k := by
        simp [dictGet, List.find?_cons, hp]
      have e2 : dictGet (p :: ps) k = dictGet ps k := by
        simp [dictGet, List.find?_cons, hp]
      rw [e1, ih, e2, List.any_cons, decide_eq_false hp, Bool.false_or]

theorem dictGet_append_single (c : List (CKey × Vec)) (k : CKey) (v : Vec)
    (h : c.any (fun p => decide (p.1 = k)) = false) :
    dictGet (c ++ [(k, v)]) k = some v := by
  induction c with
  | nil => simp [dictGet, List.find?_cons]
  | cons p ps ih =>
    rw [List.any_cons, Bool.or_eq_false_iff] at h
    have hp : ¬p.1 = k := by simpa using h.1
    have := ih h.2
    simpa [dictGet, List.find?_cons, hp] using this

theorem dictGet_dictSet_self (c : List (CKey × Vec)) (k : CKey) (v : Vec) :
    dictGet (dictSet c k v) k = some v := by
  unfold dictSet
  by_cases h : c.any (fun p => decide (p.1 = k)) = true
  · rw [if_pos h, dictGet_map_update, if_pos h]
  · rw [if_neg h]
    exact dictGet_append_single c k v (Bool.eq_false_iff.mpr h)

theorem addToCache_eq (sett : CacheSettings) (c : List (CKey × Vec))
    (t : List Char) (n : Bool) (v : Vec)
    (henabled : sett.cache_enabled = true) (hsize : 1 ≤ sett.cache_size) :
    addToCache sett c t n v =
      some (dictSet (if sett.cache_size ≤ c.length then c.tail else c) (t, n) v) := by
  unfold addToCache
  rw [henabled]
  by_cases hl : sett.cache_size ≤ c.length
  · cases c with
    | nil => simp at hl; omega
    | cons p ps =>
      have hl2 : sett.cache_size ≤ ps.length + 1 := by simpa using hl
      simp [hl2]
  · simp [hl]

theorem gen_single (sett : CacheSettings) (model : List Char → Bool → Vec)
    (s : GenState) (t : List Char)
    (henabled : sett.cache_enabled = true) (hsize : 1 ≤ sett.cache_size) :
    ∃ v s', generate_embeddings sett model s [t] true = .ok ([v], s') ∧
      s'.cache_hits = s.cache_hits +
        (if (dictGet s.cache (t, true)).isSome then 1 else 0) ∧
      dictGet s'.cache (t, true) = some v ∧
      (∀ w, dictGet s.cache (t, true) = some w → v = w) := by
  cases hd : dictGet s.cache (t, true) with
  | some w =>
    refine ⟨w, ⟨s.cache, s.cache_hits + 1, s.cache_misses, s.total_requests + 1,
      s.total_embeddings + 1⟩, ?_, by simp [hd], by simpa using hd,
      fun u hu => by injection hu⟩
    simp [generate_embeddings, scanCache, getFromCache, writeBack, henabled, hd,
      bumpCounters]
  | none =>
    refine ⟨model t true,
      ⟨dictSet (if sett.cache_size ≤ s.cache.length then s.cache.tail else s.cache)
        (t, true) (model t true), s.cache_hits, s.cache_misses + 1,
        s.total_requests + 1, s.total_embeddings + 1⟩, ?_, by simp [hd],
      by simpa using dictGet_dictSet_self _ (t, true) (model t true),
      fun u hu => Option.noConfusion hu⟩
    simp [generate_embeddings, scanCache, getFromCache, writeBack, henabled, hd,
      bumpCounters, addToCache_eq sett s.cache t true (model t true) henabled hsize]

/-- C3: with caching enabled and capacity at least 1, calling
`generate_embeddings` twice in succession with the same single text and
`normalize=true` returns identical vectors both times, and the second
call is a cache hit: `cache_hits` after the second call is exactly one
greater than after the first. -/
theorem C3_repeat_embed_cache_hit (sett : CacheSettings)
    (model : List Char → Bool → Vec) (s : GenState) (t : List Char)
    (henabled : sett.cache_enabled = true) (hsize : 1 ≤ sett.cache_size) :
    ∃ out s1 s2,
      generate_embeddings sett model s [t] true = .ok (out, s1) ∧
        generate_embeddings sett model s1 [t] true = .ok (out, s2) ∧
        s2.cache_hits = s1.cache_hits + 1 := by
  obtain ⟨v1, s1, h1, _, hcached, _⟩ := gen_single sett model s t henabled hsize
  obtain ⟨v2, s2, h2, hhits2, _, hsame⟩ := gen_single sett model s1 t henabled hsize
  have hv : v2 = v1 := hsame v1 hcached
  subst hv
  refine ⟨[v2], s1, s2, h1, h2, ?_⟩
  rw [hhits2, hcached]
  rfl

/-- Witness for C3 at a concrete configuration (capacity 3, empty
initial cache). -/
theorem C3_repeat_embed_cache_hit_witness :
    (⟨true, 3⟩ : CacheSettings).cache_enabled = true ∧
      1 ≤ (⟨true, 3⟩ : CacheSettings).cache_size ∧
      ∃ out s1 s2,
        generate_embeddings ⟨true, 3⟩ (fun t _ => [(t.length : ℚ)])
            ⟨[], 0, 0, 0, 0⟩ ["hello".data] true = .ok (out, s1) ∧
          generate_embeddings ⟨true, 3⟩ (fun t _ => [(t.length : ℚ)])
              s1 ["hello".data] true = .ok (out, s2) ∧
          s2.cache_hits = s1.cache_hits + 1 :=
  ⟨rfl, by decide, C3_repeat_embed_cache_hit ⟨true, 3⟩
    (fun t _ => [(t.length : ℚ)]) ⟨[], 0, 0, 0, 0⟩ "hello".data rfl (by decide)⟩

/-- A sequence of `_add_to_cache` calls, one per `(key, vector)` pair, in
order, starting from the given cache contents (`none` when some call
raises `StopIteration`). -/
def insertSeq (sett : CacheSettings) :
    List (CKey × Vec) → List (CKey × Vec) → Option (List (CKey × Vec))
  | c, [] => some c
  | c, kv :: rest =>
    match addToCache sett c kv.1.1 kv.1.2 kv.2 with
    | none => none
    | some c2 => insertSeq sett c2 rest

/-- The last `n` entries of a cache, in order. -/
def lastN (n : Nat) (l : List (CKey × Vec)) : List (CKey × Vec) :=
  l.drop (l.length - n)

theorem lastN_cons (cap : Nat) (p : CKey × Vec) (x : List (CKey × Vec))
    (h : cap ≤ x.length) : lastN cap (p :: x) = lastN cap x := by
  unfold lastN
  rw [List.length_cons, show x.length + 1 - cap = (x.length - cap) + 1 by omega,
    List.drop_succ_cons]

theorem dictSet_append_of_fresh (c : List (CKey × Vec)) (k : CKey) (v : Vec)
    (h : k ∉ c.map Prod.fst) : dictSet c k v = c ++ [(k, v)] := by
  unfold dictSet
  rw [if_neg]
  intro hany
  rw [List.any_eq_true] at hany
  obtain ⟨p, hp, hpk⟩ := hany
  exact h (List.mem_map.mpr ⟨p, hp, of_decide_eq_true hpk⟩)

theorem insertSeq_inv (cap : Nat) (hcap : 1 ≤ cap) :
    ∀ (kvs c : List (CKey × Vec)), c.length ≤ cap →
      ((c ++ kvs).map Prod.fst).Nodup →
      insertSeq ⟨true, cap⟩ c kvs = some (lastN cap (c ++ kvs)) := by
  intro kvs
  induction kvs with
  | nil =>
    intro c hlen hnd
    simp only [insertSeq, List.append_nil]
    rw [lastN, Nat.sub_eq_zero_of_le hlen, List.drop_zero]
  | cons kv rest ih =>
    intro c hlen hnd
    have hnd' : (c.map Prod.fst ++ (kv.1 :: rest.map Prod.fst)).Nodup := by
      simpa using hnd
    have hfresh : kv.1 ∉ c.map Prod.fst := by
      intro hmem
      exact (List.nodup_append.mp hnd').2.2 hmem (List.mem_cons_self _ _)
    by_cases hfull : cap ≤ c.length
    · have hceq : c.length = cap := le_antisymm hlen hfull
      cases c with
      | nil => rw [List.length_nil] at hceq; omega
      | cons p ps =>
        have hstep : addToCache ⟨true, cap⟩ (p :: ps) kv.1.1 kv.1.2 kv.2 =
            some (ps ++ [kv]) := by
          have hge : (p :: ps).length ≥ cap := hfull
          simp only [addToCache, Bool.not_true, Bool.false_eq_true, if_false,
            ge_iff_le, hfull, if_true, Option.map_some']
          rw [dictSet_append_of_fresh ps kv.1 kv.2
            (fun hm => hfresh (List.mem_cons_of_mem _ hm))]
        rw [insertSeq, hstep]
        show insertSeq ⟨true, cap⟩ (ps ++ [kv]) rest = _
        have hlen2 : (ps ++ [kv]).length ≤ cap := by
          rw [List.length_append, List.length_singleton]
          rw [List.length_cons] at hceq
          omega
        have hnd2 : (((ps ++ [kv]) ++ rest).map Prod.fst).Nodup := by
          rw [show (ps ++ [kv]) ++ rest = ps ++ kv :: rest by simp]
          have : ((p :: (ps ++ kv :: rest)).map Prod.fst).Nodup := by
            simpa using hnd
          exact (List.nodup_cons.mp this).2
        rw [ih (ps ++ [kv]) hlen2 hnd2]
        congr 1
        rw [show (ps ++ [kv]) ++ rest = ps ++ kv :: rest by simp,
          show (p :: ps) ++ kv :: rest = p :: (ps ++ kv :: rest) by simp]
        rw [lastN_cons]
        simp only [List.length_cons] at hceq
        simp only [List.length_append, List.length_cons]
        omega
    · push_neg at hfull
      have hstep : addToCache ⟨true, cap⟩ c kv.1.1 kv.1.2 kv.2 =
          some (c ++ [kv]) := by
        simp only [addToCache, Bool.not_true, Bool.false_eq_true, if_false,
          ge_iff_le, Option.map_some']
        rw [if_neg (by omega), Option.map_some']
        rw [dictSet_append_of_fresh c kv.1 kv.2 hfresh]
      rw [insertSeq, hstep]
      show insertSeq ⟨true, cap⟩ (c ++ [kv]) rest = _
      have hlen2 : (c ++ [kv]).length ≤ cap := by
        rw [List.length_append, List.length_singleton]
        omega
      have hnd2 : (((c ++ [kv]) ++ rest).map Prod.fst).Nodup := by
        rw [show (c ++ [kv]) ++ rest = c ++ kv :: rest by simp]
        exact hnd
      rw [ih (c ++ [kv]) hlen2 hnd2]
      congr 1
      rw [show (c ++ [kv]) ++ rest = c ++ kv :: rest by simp]

/-- Counterexample to C4 as stated: the claim quantifies only over
"caching enabled, cache starting empty", but at the configured capacity
0 (the config validates `cache_size ≥ 0`) inserting capacity + 1 = 1 key
makes `_add_to_cache` evaluate `next(iter({}))` on the empty dict and
raise `StopIteration` (modelled `none`): no key is inserted and nothing
is evicted, so the sequence does not complete with the first-inserted key
evicted. -/
theorem C4_cache_eviction_counterexample :
    insertSeq ⟨true, 0⟩ [] [(("a".data, true), [1])] = none := rfl

/-- C4 (amended): with caching enabled and capacity at least 1, inserting
capacity + 1 distinct keys into an initially empty cache evicts exactly
the first-inserted key and no other: afterwards the cache holds precisely
the last capacity entries, in insertion order. -/
theorem C4_cache_eviction_amended (cap : Nat) (hcap : 1 ≤ cap)
    (kvs : List (CKey × Vec)) (hlen : kvs.length = cap + 1)
    (hnd : (kvs.map Prod.fst).Nodup) :
    insertSeq ⟨true, cap⟩ [] kvs = some (kvs.drop 1) := by
  have h := insertSeq_inv cap hcap kvs [] (by simp) (by simpa using hnd)
  rw [List.nil_append] at h
  rw [h]
  unfold lastN
  rw [hlen, show cap + 1 - cap = 1 by omega]

/-- Witness for the amended C4 at capacity 1 with keys `a`, `b`. -/
theorem C4_cache_eviction_amended_witness :
    1 ≤ 1 ∧
      ([(("a".data, true), ([1] : Vec)), (("b".data, true), [2])].length = 1 + 1) ∧
      (([(("a".data, true), ([1] : Vec)), (("b".data, true), [2])].map
        Prod.fst).Nodup) ∧
      insertSeq ⟨true, 1⟩ []
          [(("a".data, true), [1]), (("b".data, true), [2])] =
        some ([(("a".data, true), ([1] : Vec)), (("b".data, true), [2])].drop 1) :=
  ⟨le_refl 1, rfl, by decide,
    C4_cache_eviction_amended 1 (le_refl 1)
      [(("a".data, true), [1]), (("b".data, true), [2])] rfl (by decide)⟩

/-- One row of the three-way join
`embeddings e JOIN chunks c ON e.chunk_id = c.id JOIN documents d ON
e.document_id = d.id` that `VectorService.search_similar` selects from:
the stored embedding row together with the joined chunk text and
filename. -/
structure SearchRow where
  eid : String
  chunk_id : Int
  document_id : String
  chunk_text : String
  filename : String
  compliance_framework_id : Option Int
  compliance_tags : List String
  keywords : List String
  workspace_id : String
  embedding : Vec
  deriving Repr, DecidableEq

/-- One result dictionary built by `VectorService.search_similar`. -/
structure SearchResult where
  eid : String
  chunk_id : Int
  document_id : String
  chunk_text : String
  filename : String
  compliance_framework_id : Option Int
  compliance_tags : List String
  keywords : List String
  distance : ℚ
  similarity : ℚ
  deriving Repr, DecidableEq

/-- Python truthiness of the `compliance_framework_id` parameter:
`if compliance_framework_id:` is false for `None` AND for `0`. -/
def frameworkTruthy : Option Int → Bool
  | none => false
  | some f => decide (f ≠ 0)

/-- The `WHERE` clause of `VectorService.search_similar`: the workspace
filter is always applied; the framework equality clause is added only
when the parameter is truthy. -/
def searchCandidates (db : List SearchRow) (workspace_id : String)
    (compliance_framework_id : Option Int) : List SearchRow :=
  if frameworkTruthy compliance_framework_id then
    (db.filter (fun r => decide (r.workspace_id = workspace_id))).filter
      (fun r => decide (r.compliance_framework_id = compliance_framework_id))
  else db.filter (fun r => decide (r.workspace_id = workspace_id))

/-- The result dictionary `search_similar` builds for one fetched row:
`distance` is the row's computed distance and `similarity = 1 - distance`. -/
def mkSearchResult (dist : Vec → Vec → ℚ) (query_embedding : Vec)
    (r : SearchRow) : SearchResult :=
  { eid := r.eid
    chunk_id := r.chunk_id
    document_id := r.document_id
    chunk_text := r.chunk_text
    filename := r.filename
    compliance_framework_id := r.compliance_framework_id
    compliance_tags := r.compliance_tags
    keywords := r.keywords
    distance := dist query_embedding r.embedding
    similarity := 1 - dist query_embedding r.embedding }

/-- `VectorService.search_similar`: filter (workspace, and framework when
truthy), `ORDER BY distance` ascending (the store's ordering of the
SELECT, modelled as a sort; ties are in unspecified row order), `LIMIT`,
then build result dictionaries.  `dist` is the store's native `<=>`
cosine-distance operator, to which the source delegates distance
computation. -/
def search_similar (dist : Vec → Vec → ℚ) (db : List SearchRow)
    (query_embedding : Vec) (workspace_id : String) (limit : Nat)
    (compliance_framework_id : Option Int) : List SearchResult :=
  ((List.insertionSort
      (fun a b => dist query_embedding a.embedding ≤ dist query_embedding b.embedding)
      (searchCandidates db workspace_id compliance_framework_id)).take
    limit).map (mkSearchResult dist query_embedding)

/-- Counterexample to C1 as stated: the framework filter is added only
under Python truthiness (`if compliance_framework_id:`), so the non-null
filter `F = 0` is silently ignored: a search with filter `some 0` returns
a row whose stored `compliance_framework_id` is `some 1 ≠ some 0`. -/
theorem C1_search_filter_counterexample :
    (search_similar (fun _ _ => 0)
        [⟨"e1", 1, "d1", "text", "file", some 1, [], [], "w", []⟩]
        [] "w" 10 (some 0)).map SearchResult.compliance_framework_id =
      [some 1] ∧ (some (1 : Int) ≠ some (0 : Int)) :=
  ⟨rfl, by decide⟩

/-- C1 (amended): for every query vector, workspace id, limit and
non-null, nonzero framework filter `F` (Python truthiness: the clause is
added only `if compliance_framework_id:`, so `F = 0` is treated as
absent), `search_similar` returns only result rows built from stored rows
whose `compliance_framework_id` equals `F` and whose `workspace_id`
equals the scope; the framework filter is applied to the candidate set
before ranking and truncation, so the result count is
`min limit (number of matching rows)`; results are ordered ascending by
distance; and every returned row's `similarity` equals
`1 - distance`. -/
theorem C1_search_filter_semantics (dist : Vec → Vec → ℚ)
    (db : List SearchRow) (q : Vec) (ws : String) (limit : Nat) (f : Int)
    (hf : f ≠ 0) :
    (∀ x ∈ search_similar dist db q ws limit (some f),
      x.compliance_framework_id = some f ∧
        ∃ row ∈ db, row.workspace_id = ws ∧
          row.compliance_framework_id = some f ∧
          x = mkSearchResult dist q row) ∧
      (search_similar dist db q ws limit (some f)).length =
        min limit (db.countP (fun r =>
          decide (r.compliance_framework_id = some f) &&
            decide (r.workspace_id = ws))) ∧
      ((search_similar dist db q ws limit (some f)).map
        SearchResult.distance).Sorted (· ≤ ·) ∧
      (∀ x ∈ search_similar dist db q ws limit (some f),
        x.similarity = 1 - x.distance) := by
  have htruthy : frameworkTruthy (some f) = true := by
    simp [frameworkTruthy, hf]
  have hcand : searchCandidates db ws (some f) =
      (db.filter (fun r => decide (r.workspace_id = ws))).filter
        (fun r => decide (r.compliance_framework_id = some f)) := by
    rw [searchCandidates, if_pos htruthy]
  haveI hTot : IsTotal SearchRow
      (fun a b => dist q a.embedding ≤ dist q b.embedding) :=
    ⟨fun a b => le_total _ _⟩
  haveI hTrans : IsTrans SearchRow
      (fun a b => dist q a.embedding ≤ dist q b.embedding) :=
    ⟨fun _ _ _ hab hbc => le_trans hab hbc⟩
  have hmemrow : ∀ r, r ∈ (List.insertionSort
      (fun a b => dist q a.embedding ≤ dist q b.embedding)
      (searchCandidates db ws (some f))).take limit →
      r ∈ db ∧ r.workspace_id = ws ∧ r.compliance_framework_id = some f := by
    intro r hr
    have h1 : r ∈ List.insertionSort
        (fun a b => dist q a.embedding ≤ dist q b.embedding)
        (searchCandidates db ws (some f)) :=
      (List.take_sublist _ _).mem hr
    have h2 : r ∈ searchCandidates db ws (some f) :=
      (List.perm_insertionSort _ _).mem_iff.mp h1
    rw [hcand] at h2
    have h3 := List.mem_filter.mp h2
    have h4 := List.mem_filter.mp h3.1
    exact ⟨h4.1, of_decide_eq_true h4.2, of_decide_eq_true h3.2⟩
  refine ⟨?_, ?_, ?_, ?_⟩
  · intro x hx
    obtain ⟨r, hr, rfl⟩ := List.mem_map.mp hx
    obtain ⟨hdb, hws, hfw⟩ := hmemrow r hr
    exact ⟨hfw, r, hdb, hws, hfw, rfl⟩
  · rw [search_similar, List.length_map, List.length_take]
    rw [(List.perm_insertionSort _ _).length_eq, hcand, List.filter_filter,
      List.countP_eq_length_filter]
  · rw [search_similar]
    have hsorted := List.sorted_insertionSort
      (fun a b => dist q a.embedding ≤ dist q b.embedding)
      (searchCandidates db ws (some f))
    have htake : List.Sorted (fun a b => dist q a.embedding ≤ dist q b.embedding)
        ((List.insertionSort
          (fun a b => dist q a.embedding ≤ dist q b.embedding)
          (searchCandidates db ws (some f))).take limit) :=
      List.Pairwise.sublist (List.take_sublist _ _) hsorted
    rw [List.map_map]
    exact List.Pairwise.map _ (fun a b hab => hab) htake
  · intro x hx
    obtain ⟨r, _, rfl⟩ := List.mem_map.mp hx
    rfl

/-- Witness for the amended C1: a one-row store searched with the truthy
filter `some 2`. -/
theorem C1_search_filter_semantics_witness :
    (2 : Int) ≠ 0 ∧
      ((∀ x ∈ search_similar (fun _ _ => 0)
          [⟨"e1", 1, "d1", "text", "file", some 2, [], [], "w", []⟩]
          [] "w" 10 (some 2),
        x.compliance_framework_id = some 2 ∧
          ∃ row ∈ [(⟨"e1", 1, "d1", "text", "file", some 2, [], [], "w", []⟩ :
              SearchRow)], row.workspace_id = "w" ∧
            row.compliance_framework_id = some 2 ∧
            x = mkSearchResult (fun _ _ => 0) [] row) ∧
        (search_similar (fun _ _ => 0)
          [⟨"e1", 1, "d1", "text", "file", some 2, [], [], "w", []⟩]
          [] "w" 10 (some 2)).length =
          min 10 ([(⟨"e1", 1, "d1", "text", "file", some 2, [], [], "w", []⟩ :
            SearchRow)].countP (fun r =>
              decide (r.compliance_framework_id = some 2) &&
                decide (r.workspace_id = "w"))) ∧
        ((search_similar (fun _ _ => 0)
          [⟨"e1", 1, "d1", "text", "file", some 2, [], [], "w", []⟩]
          [] "w" 10 (some 2)).map SearchResult.distance).Sorted (· ≤ ·) ∧
        (∀ x ∈ search_similar (fun _ _ => 0)
          [⟨"e1", 1, "d1", "text", "file", some 2, [], [], "w", []⟩]
          [] "w" 10 (some 2), x.similarity = 1 - x.distance)) :=
  ⟨by decide, C1_search_filter_semantics (fun _ _ => 0)
    [⟨"e1", 1, "d1", "text", "file", some 2, [], [], "w", []⟩]
    [] "w" 10 2 (by decide)⟩

/-- A row of the `documents` table (columns written by this service). -/
structure DocRow where
  rid : String
  workspace_id : String
  raw_text : List Char
  filename : String
  content_type : String
  file_size : Nat
  vultr_s3_key : String
  smartbucket_key : Option String
  uploaded_by : String
  created_at : Nat
  updated_at : Nat
  processing_status : String
  chunk_count : Option Nat
  embedding_count : Option Nat
  processed_at : Option Nat
  deriving Repr, DecidableEq

/-- A row of the `chunks` table; `rid` is the serial `id` returned by
`RETURNING id`. -/
structure ChunkRow where
  rid : Nat
  document_id : String
  workspace_id : String
  chunk_text : List Char
  chunk_index : Nat
  token_count : Nat
  char_count : Nat
  start_position : Nat
  end_position : Nat
  has_header : Bool
  section_title : Option (List Char)
  created_at : Nat
  updated_at : Option Nat
  embedding_status : String
  deriving Repr, DecidableEq

/-- A row of the `embeddings` table (`chunk_id` unique). -/
structure EmbRow where
  rid : String
  chunk_id : Nat
  document_id : String
  workspace_id : String
  embedding : Vec
  compliance_framework_id : Option Nat
  compliance_tags : List String
  keywords : List (List Char)
  created_at : Nat
  updated_at : Nat
  deriving Repr, DecidableEq

/-- The relational store as seen by `VectorService`; `nextChunkId` is the
serial sequence behind `chunks.id`. -/
structure PGState where
  documents : List DocRow
  chunks : List ChunkRow
  embeddings : List EmbRow
  nextChunkId : Nat
  deriving Repr, DecidableEq

/-- `VectorService.store_document`: `INSERT ... ON CONFLICT (id) DO
UPDATE SET raw_text, updated_at, processing_status`, with
`processing_status = 'processing'`. -/
def store_document (st : PGState) (document_id workspace_id : String)
    (raw_text : List Char) (filename content_type : String) (file_size : Nat)
    (vultr_s3_key : String) (smartbucket_key : Option String)
    (uploaded_by : String) (now : Nat) : PGState :=
  if st.documents.any (fun d => decide (d.rid = document_id)) then
    { st with documents := st.documents.map (fun d =>
        if d.rid = document_id then
          { d with raw_text := raw_text, updated_at := now,
                   processing_status := "processing" }
        else d) }
  else
    { st with documents := st.documents ++
        [⟨document_id, workspace_id, raw_text, filename, content_type,
          file_size, vultr_s3_key, smartbucket_key, uploaded_by, now, now,
          "processing", none, none, none⟩] }

/-- One `INSERT INTO chunks ... RETURNING id` statement of
`VectorService.store_chunks` (committed on its own: the source acquires a
connection but opens no transaction, and asyncpg auto-commits each
statement). -/
def insertChunkRow (st : PGState) (document_id workspace_id : String)
    (ch : Chunk) (now : Nat) : PGState × Nat :=
  ({ st with
      chunks := st.chunks ++
        [⟨st.nextChunkId, document_id, workspace_id, ch.chunk_text,
          ch.chunk_index, ch.token_count, ch.char_count, ch.start_position,
          ch.end_position, ch.has_header, ch.section_title, now, none,
          "pending"⟩]
      nextChunkId := st.nextChunkId + 1 }, st.nextChunkId)

/-- The insert loop of `VectorService.store_chunks` with failure
injection: `failAt = some k` makes the k-th statement raise; because
each earlier statement was auto-committed, the error carries the state
with those writes retained. -/
def storeChunksLoop (document_id workspace_id : String) (now : Nat)
    (failAt : Option Nat) :
    PGState → List Chunk → Nat → List Nat → Except PGState (PGState × List Nat)
  | st, [], _, acc => .ok (st, acc)
  | st, ch :: rest, i, acc =>
    if failAt = some i then .error st
    else
      storeChunksLoop document_id workspace_id now failAt
        (insertChunkRow st document_id workspace_id ch now).1 rest (i + 1)
        (acc ++ [(insertChunkRow st document_id workspace_id ch now).2])

/-- `VectorService.store_chunks`. -/
def store_chunks (st : PGState) (document_id workspace_id : String)
    (chunks : List Chunk) (now : Nat) (failAt : Option Nat) :
    Except PGState (PGState × List Nat) :=
  storeChunksLoop document_id workspace_id now failAt st chunks 0 []

/-- One upsert of `VectorService.store_embeddings`:
`INSERT INTO embeddings ... ON CONFLICT (chunk_id) DO UPDATE SET
embedding, compliance_framework_id, compliance_tags, keywords,
updated_at`; `id = f"{document_id}_emb_{i}"`. -/
def upsertEmbedding (st : PGState) (document_id workspace_id : String)
    (i : Nat) (chunk_id : Nat) (emb : Vec) (tags : TagResult) (now : Nat) :
    PGState :=
  if st.embeddings.any (fun e => decide (e.chunk_id = chunk_id)) then
    { st with embeddings := st.embeddings.map (fun e =>
        if e.chunk_id = chunk_id then
          { e with embedding := emb
                   compliance_framework_id := tags.compliance_framework_id
                   compliance_tags := tags.compliance_tags
                   keywords := tags.keywords
                   updated_at := now }
        else e) }
  else
    { st with embeddings := st.embeddings ++
        [⟨document_id ++ "_emb_" ++ toString i, chunk_id, document_id,
          workspace_id, emb, tags.compliance_framework_id,
          tags.compliance_tags, tags.keywords, now, now⟩] }

/-- `UPDATE chunks SET embedding_status = 'completed', updated_at = $1
WHERE document_id = $2`. -/
def completeChunks (st : PGState) (document_id : String) (now : Nat) : PGState :=
  { st with chunks := st.chunks.map (fun c =>
      if c.document_id = document_id then
        { c with embedding_status := "completed", updated_at := some now }
      else c) }

/-- `UPDATE documents SET processing_status = 'completed', chunk_count,
embedding_count, processed_at, updated_at WHERE id = $4`. -/
def completeDocument (st : PGState) (document_id : String)
    (chunkCount storedCount now : Nat) : PGState :=
  { st with documents := st.documents.map (fun d =>
      if d.rid = document_id then
        { d with processing_status := "completed"
                 chunk_count := some chunkCount
                 embedding_count := some storedCount
                 processed_at := some now
                 updated_at := now }
      else d) }

/-- The statement sequence of `VectorService.store_embeddings` with
failure injection: statements `0..n-1` are the upserts over
`zip(chunk_ids, embeddings, tags_list)`, statement `n` is the chunk
status update, statement `n + 1` the document status update.  As in
`store_chunks`, each statement auto-commits, so an error carries the
state with all earlier statements applied. -/
def storeEmbeddingsLoop (document_id workspace_id : String) (chunkCount now : Nat)
    (failAt : Option Nat) :
    PGState → List (Nat × Vec × TagResult) → Nat → Except PGState (PGState × Nat)
  | st, [], i =>
    if failAt = some i then .error st
    else
      if failAt = some (i + 1) then .error (completeChunks st document_id now)
      else .ok (completeDocument (completeChunks st document_id now) document_id
        chunkCount i now, i)
  | st, (cid, emb, tags) :: rest, i =>
    if failAt = some i then .error st
    else
      storeEmbeddingsLoop document_id workspace_id chunkCount now failAt
        (upsertEmbedding st document_id workspace_id i cid emb tags now) rest
        (i + 1)

/-- `VectorService.store_embeddings`. -/
def store_embeddings (st : PGState) (document_id workspace_id : String)
    (chunk_ids : List Nat) (embeddings : List Vec) (tags_list : List TagResult)
    (now : Nat) (failAt : Option Nat) : Except PGState (PGState × Nat) :=
  storeEmbeddingsLoop document_id workspace_id chunk_ids.length now failAt st
    (chunk_ids.zip (embeddings.zip tags_list)) 0

/-- The store after the first chunk inserts only (each committed on its
own). -/
def applyChunkInserts (document_id workspace_id : String) (now : Nat) :
    PGState → List Chunk → PGState
  | st, [] => st
  | st, ch :: rest =>
    applyChunkInserts document_id workspace_id now
      (insertChunkRow st document_id workspace_id ch now).1 rest

/-- The store after the first embedding upserts only, starting at
enumerate index `i`. -/
def applyUpserts (document_id workspace_id : String) (now : Nat) :
    PGState → Nat → List (Nat × Vec × TagResult) → PGState
  | st, _, [] => st
  | st, i, (cid, emb, tags) :: rest =>
    applyUpserts document_id workspace_id now
      (upsertEmbedding st document_id workspace_id i cid emb tags now) (i + 1)
      rest

theorem storeChunksLoop_fail (document_id workspace_id : String) (now : Nat) :
    ∀ (chunks : List Chunk) (st : PGState) (i : Nat) (acc : List Nat) (k : Nat),
      k < chunks.length →
      storeChunksLoop document_id workspace_id now (some (i + k)) st chunks i acc =
        .error (applyChunkInserts document_id workspace_id now st (chunks.take k)) := by
  intro chunks
  induction chunks with
  | nil => intro st i acc k hk; simp at hk
  | cons ch rest ih =>
    intro st i acc k hk
    cases k with
    | zero =>
      rw [storeChunksLoop, if_pos (by rw [Nat.add_zero])]
      rfl
    | succ k =>
      rw [storeChunksLoop, if_neg (by intro hco; simp only [Option.some.injEq, List.length_cons] at hco; omega), List.take_succ_cons,
        applyChunkInserts]
      rw [show i + (k + 1) = (i + 1) + k by omega]
      exact ih _ (i + 1) _ k (by simpa using hk)

theorem applyChunkInserts_chunks_length (document_id workspace_id : String)
    (now : Nat) :
    ∀ (l : List Chunk) (st : PGState),
      (applyChunkInserts document_id workspace_id now st l).chunks.length =
        st.chunks.length + l.length := by
  intro l
  induction l with
  | nil => intro st; rfl
  | cons ch rest ih =>
    intro st
    rw [applyChunkInserts, ih]
    simp [insertChunkRow]
    omega

theorem storeEmbeddingsLoop_fail (document_id workspace_id : String)
    (chunkCount now : Nat) :
    ∀ (triples : List (Nat × Vec × TagResult)) (st : PGState) (i k : Nat),
      k < triples.length →
      storeEmbeddingsLoop document_id workspace_id chunkCount now (some (i + k))
          st triples i =
        .error (applyUpserts document_id workspace_id now st i (triples.take k)) := by
  intro triples
  induction triples with
  | nil => intro st i k hk; simp at hk
  | cons tr rest ih =>
    intro st i k hk
    obtain ⟨cid, emb, tags⟩ := tr
    cases k with
    | zero =>
      rw [storeEmbeddingsLoop, if_pos (by rw [Nat.add_zero])]
      rfl
    | succ k =>
      rw [storeEmbeddingsLoop, if_neg (by intro hco; simp only [Option.some.injEq, List.length_cons] at hco; omega), List.take_succ_cons,
        applyUpserts]
      rw [show i + (k + 1) = (i + 1) + k by omega]
      exact ih _ (i + 1) k (by simpa using hk)

theorem storeEmbeddingsLoop_fail_at_chunk_update (document_id workspace_id : String)
    (chunkCount now : Nat) :
    ∀ (triples : List (Nat × Vec × TagResult)) (st : PGState) (i : Nat),
      storeEmbeddingsLoop document_id workspace_id chunkCount now
          (some (i + triples.length)) st triples i =
        .error (applyUpserts document_id workspace_id now st i triples) := by
  intro triples
  induction triples with
  | nil =>
    intro st i
    rw [storeEmbeddingsLoop, if_pos (by rw [List.length_nil, Nat.add_zero])]
    rfl
  | cons tr rest ih =>
    intro st i
    obtain ⟨cid, emb, tags⟩ := tr
    rw [storeEmbeddingsLoop, if_neg (by intro hco; simp only [Option.some.injEq, List.length_cons] at hco; omega), applyUpserts]
    simp only [List.length_cons]
    rw [show i + (rest.length + 1) = (i + 1) + rest.length by omega]
    exact ih _ (i + 1)

theorem storeEmbeddingsLoop_fail_at_doc_update (document_id workspace_id : String)
    (chunkCount now : Nat) :
    ∀ (triples : List (Nat × Vec × TagResult)) (st : PGState) (i : Nat),
      storeEmbeddingsLoop document_id workspace_id chunkCount now
          (some (i + triples.length + 1)) st triples i =
        .error (completeChunks
          (applyUpserts document_id workspace_id now st i triples)
          document_id now) := by
  intro triples
  induction triples with
  | nil =>
    intro st i
    rw [storeEmbeddingsLoop, if_neg (by simp), if_pos (by simp)]
    rfl
  | cons tr rest ih =>
    intro st i
    obtain ⟨cid, emb, tags⟩ := tr
    rw [storeEmbeddingsLoop, if_neg (by intro hco; simp only [Option.some.injEq, List.length_cons] at hco; omega), applyUpserts]
    simp only [List.length_cons]
    rw [show i + (rest.length + 1) + 1 = (i + 1) + rest.length + 1 by omega]
    exact ih _ (i + 1)

/-- Counterexample to C7 as stated: `store_chunks` acquires one pooled
connection but opens no transaction, so each `INSERT` auto-commits; when
the second insert raises, the first insert's row remains committed and
the store is NOT left unchanged by the failed operation. -/
theorem C7_transaction_rollback_counterexample :
    store_chunks ⟨[], [], [], 0⟩ "d" "w"
        [mkChunk 0 ["a".data] 0, mkChunk 1 ["b".data] 0] 5 (some 1) =
      .error (applyChunkInserts "d" "w" 5 ⟨[], [], [], 0⟩ [mkChunk 0 ["a".data] 0]) ∧
      applyChunkInserts "d" "w" 5 ⟨[], [], [], 0⟩ [mkChunk 0 ["a".data] 0] ≠
        ⟨[], [], [], 0⟩ :=
  ⟨rfl, by decide⟩

/-- C7 (amended): `store_chunks` and `store_embeddings` each execute
their statements on a single connection WITHOUT an enclosing transaction;
every statement auto-commits individually, so when statement `k` raises,
the writes of statements `0..k-1` remain committed — the store is left
with exactly the first `k` writes of the failed operation, not rolled
back to its prior state. -/
theorem C7_autocommit_partial_writes :
    (∀ (st : PGState) (document_id workspace_id : String) (chunks : List Chunk)
      (now k : Nat), k < chunks.length →
      store_chunks st document_id workspace_id chunks now (some k) =
        .error (applyChunkInserts document_id workspace_id now st
          (chunks.take k)) ∧
        (applyChunkInserts document_id workspace_id now st
          (chunks.take k)).chunks.length = st.chunks.length + k) ∧
      (∀ (st : PGState) (document_id workspace_id : String)
        (chunk_ids : List Nat) (embs : List Vec) (tags_list : List TagResult)
        (now k : Nat), k < (chunk_ids.zip (embs.zip tags_list)).length →
        store_embeddings st document_id workspace_id chunk_ids embs tags_list
            now (some k) =
          .error (applyUpserts document_id workspace_id now st 0
            ((chunk_ids.zip (embs.zip tags_list)).take k))) := by
  constructor
  · intro st document_id workspace_id chunks now k hk
    constructor
    · rw [store_chunks, show (some k : Option Nat) = some (0 + k) by rw [Nat.zero_add]]
      exact storeChunksLoop_fail document_id workspace_id now chunks st 0 [] k hk
    · rw [applyChunkInserts_chunks_length]
      congr 1
      rw [List.length_take]
      omega
  · intro st document_id workspace_id chunk_ids embs tags_list now k hk
    rw [store_embeddings, show (some k : Option Nat) = some (0 + k) by rw [Nat.zero_add]]
    exact storeEmbeddingsLoop_fail document_id workspace_id chunk_ids.length now
      (chunk_ids.zip (embs.zip tags_list)) st 0 k hk

/-- Witness for the amended C7: two-chunk / two-embedding stores failing
at statement 1. -/
theorem C7_autocommit_partial_writes_witness :
    (store_chunks ⟨[], [], [], 0⟩ "d" "w"
        [mkChunk 0 ["a".data] 0, mkChunk 1 ["b".data] 0] 5 (some 1) =
      .error (applyChunkInserts "d" "w" 5 ⟨[], [], [], 0⟩
        ([mkChunk 0 ["a".data] 0, mkChunk 1 ["b".data] 0].take 1)) ∧
      (applyChunkInserts "d" "w" 5 ⟨[], [], [], 0⟩
        ([mkChunk 0 ["a".data] 0, mkChunk 1 ["b".data] 0].take 1)).chunks.length =
        (⟨[], [], [], 0⟩ : PGState).chunks.length + 1) ∧
      store_embeddings ⟨[], [], [], 0⟩ "d" "w" [3, 4] [[1], [2]]
          [⟨none, [], []⟩, ⟨none, [], []⟩] 5 (some 1) =
        .error (applyUpserts "d" "w" 5 ⟨[], [], [], 0⟩ 0
          (([3, 4].zip ([[1], [2]].zip
            [(⟨none, [], []⟩ : TagResult), ⟨none, [], []⟩])).take 1)) :=
  ⟨C7_autocommit_partial_writes.1 ⟨[], [], [], 0⟩ "d" "w"
      [mkChunk 0 ["a".data] 0, mkChunk 1 ["b".data] 0] 5 1 (by decide),
    C7_autocommit_partial_writes.2 ⟨[], [], [], 0⟩ "d" "w" [3, 4] [[1], [2]]
      [⟨none, [], []⟩, ⟨none, [], []⟩] 5 1 (by decide)⟩

/-- The `/process` handler `process_document` of `document_routes.py`:
store the document (status `'processing'`), chunk, raise on zero chunks,
store chunks, generate embeddings, tag, store embeddings.  The handler's
`except Exception` catches every raise — including its own
`HTTPException(400)` for zero chunks — and re-raises
`HTTPException(500)`, so every error exit carries status code 500 and the
store state at the raise.  `chunkFail`/`embFail` inject persistence
failures into the two multi-statement stores.  No error path updates the
document's `processing_status`. -/
def process_document (sett : CacheSettings) (model : List Char → Bool → Vec)
    (gs : GenState) (st : PGState) (document_id workspace_id : String)
    (raw_text : List Char) (filename content_type : String) (file_size : Nat)
    (vultr_s3_key : String) (smartbucket_key : Option String)
    (uploaded_by : String) (now : Nat) (chunkFail embFail : Option Nat) :
    Except (Nat × PGState × GenState) (PGState × GenState × Nat × Nat) :=
  let st1 := store_document st document_id workspace_id raw_text filename
    content_type file_size vultr_s3_key smartbucket_key uploaded_by now
  let chunks := chunk_text 512 raw_text
  if chunks.isEmpty then .error (500, st1, gs)
  else
    match store_chunks st1 document_id workspace_id chunks now chunkFail with
    | .error st' => .error (500, st', gs)
    | .ok (st2, chunk_ids) =>
      match generate_embeddings sett model gs (chunks.map Chunk.chunk_text) true with
      | .error gs' => .error (500, st2, gs')
      | .ok (embs, gs2) =>
        match store_embeddings st2 document_id workspace_id chunk_ids embs
            (chunks.map (fun ch => tag_chunk ch.chunk_text)) now embFail with
        | .error st' => .error (500, st', gs2)
        | .ok (st3, stored) => .ok (st3, gs2, chunks.length, stored)

theorem store_document_status (st : PGState) (document_id workspace_id : String)
    (raw_text : List Char) (filename content_type : String) (file_size : Nat)
    (vultr_s3_key : String) (smartbucket_key : Option String)
    (uploaded_by : String) (now : Nat) :
    ∀ d ∈ (store_document st document_id workspace_id raw_text filename
      content_type file_size vultr_s3_key smartbucket_key uploaded_by
      now).documents, d.rid = document_id → d.processing_status = "processing" := by
  intro d hd hrid
  unfold store_document at hd
  by_cases hany : st.documents.any (fun d => decide (d.rid = document_id)) = true
  · rw [if_pos hany] at hd
    simp only at hd
    obtain ⟨d0, hd0, hmap⟩ := List.mem_map.mp hd
    by_cases h0 : d0.rid = document_id
    · rw [if_pos h0] at hmap
      rw [← hmap]
    · rw [if_neg h0] at hmap
      rw [← hmap] at hrid
      exact absurd hrid h0
  · rw [if_neg hany] at hd
    simp only at hd
    rcases List.mem_append.mp hd with h | h
    · rw [List.any_eq_true] at hany
      exact absurd ⟨d, h, decide_eq_true hrid⟩ hany
    · rw [List.mem_singleton] at h
      rw [h]

theorem storeChunksLoop_documents (document_id workspace_id : String)
    (now : Nat) (failAt : Option Nat) :
    ∀ (chunks : List Chunk) (st : PGState) (i : Nat) (acc : List Nat),
      (match storeChunksLoop document_id workspace_id now failAt st chunks i acc with
        | .error st' => st'.documents
        | .ok (st', _) => st'.documents) = st.documents := by
  intro chunks
  induction chunks with
  | nil => intro st i acc; rfl
  | cons ch rest ih =>
    intro st i acc
    rw [storeChunksLoop]
    by_cases hfail : failAt = some i
    · rw [if_pos hfail]
    · rw [if_neg hfail]
      exact ih _ (i + 1) _

theorem applyUpserts_documents (document_id workspace_id : String) (now : Nat) :
    ∀ (triples : List (Nat × Vec × TagResult)) (st : PGState) (i : Nat),
      (applyUpserts document_id workspace_id now st i triples).documents =
        st.documents := by
  intro triples
  induction triples with
  | nil => intro st i; rfl
  | cons tr rest ih =>
    intro st i
    obtain ⟨cid, emb, tags⟩ := tr
    rw [applyUpserts, ih]
    unfold upsertEmbedding
    by_cases h : st.embeddings.any (fun e => decide (e.chunk_id = cid)) = true
    · rw [if_pos h]
    · rw [if_neg h]

theorem storeEmbeddingsLoop_error_documents (document_id workspace_id : String)
    (chunkCount now : Nat) (failAt : Option Nat) :
    ∀ (triples : List (Nat × Vec × TagResult)) (st : PGState) (i : Nat) (st' : PGState),
      storeEmbeddingsLoop document_id workspace_id chunkCount now failAt st
          triples i = .error st' → st'.documents = st.documents := by
  intro triples
  induction triples with
  | nil =>
    intro st i st' h
    rw [storeEmbeddingsLoop] at h
    by_cases h1 : failAt = some i
    · rw [if_pos h1] at h
      injection h with h2
      rw [← h2]
    · rw [if_neg h1] at h
      by_cases h2 : failAt = some (i + 1)
      · rw [if_pos h2] at h
        injection h with h3
        rw [← h3]
        rfl
      · rw [if_neg h2] at h
        exact absurd h (by simp)
  | cons tr rest ih =>
    intro st i st' h
    obtain ⟨cid, emb, tags⟩ := tr
    rw [storeEmbeddingsLoop] at h
    by_cases h1 : failAt = some i
    · rw [if_pos h1] at h
      injection h with h2
      rw [← h2]
    · rw [if_neg h1] at h
      have := ih _ (i + 1) st' h
      rw [this]
      unfold upsertEmbedding
      by_cases h3 : st.embeddings.any (fun e => decide (e.chunk_id = cid)) = true
      · rw [if_pos h3]
      · rw [if_neg h3]

theorem store_embeddings_error_documents (document_id workspace_id : String)
    (chunk_ids : List Nat) (embs : List Vec) (tags_list : List TagResult)
    (now : Nat) (failAt : Option Nat) (st st' : PGState)
    (h : store_embeddings st document_id workspace_id chunk_ids embs tags_list
      now failAt = .error st') : st'.documents = st.documents :=
  storeEmbeddingsLoop_error_documents document_id workspace_id chunk_ids.length
    now failAt (chunk_ids.zip (embs.zip tags_list)) st 0 st' h

/-- On every error exit of `process_document`, the processed document's
row still has `processing_status = 'processing'`: no error path ever
writes `'failed'`. -/
theorem process_document_error_keeps_processing (sett : CacheSettings)
    (model : List Char → Bool → Vec) (gs : GenState) (st : PGState)
    (document_id workspace_id : String) (raw_text : List Char)
    (filename content_type : String) (file_size : Nat) (vultr_s3_key : String)
    (smartbucket_key : Option String) (uploaded_by : String) (now : Nat)
    (chunkFail embFail : Option Nat) (code : Nat) (st' : PGState) (gs' : GenState)
    (h : process_document sett model gs st document_id workspace_id raw_text
      filename content_type file_size vultr_s3_key smartbucket_key uploaded_by
      now chunkFail embFail = .error (code, st', gs')) :
    code = 500 ∧ ∀ d ∈ st'.documents, d.rid = document_id →
      d.processing_status = "processing" := by
  unfold process_document at h
  set st1 := store_document st document_id workspace_id raw_text filename
    content_type file_size vultr_s3_key smartbucket_key uploaded_by now with hst1
  have hdoc1 := store_document_status st document_id workspace_id raw_text
    filename content_type file_size vultr_s3_key smartbucket_key uploaded_by now
  rw [← hst1] at hdoc1
  have hscdocs : ∀ (res : Except PGState (PGState × List Nat)),
      store_chunks st1 document_id workspace_id (chunk_text 512 raw_text) now
        chunkFail = res →
      (match res with
        | .error s => s.documents
        | .ok (s, _) => s.documents) = st1.documents := by
    intro res hres
    rw [← hres]
    exact storeChunksLoop_documents document_id workspace_id now chunkFail
      (chunk_text 512 raw_text) st1 0 []
  by_cases hempty : (chunk_text 512 raw_text).isEmpty = true
  · rw [if_pos hempty] at h
    injection h with h2
    obtain rfl : code = 500 := (congrArg Prod.fst h2).symm
    have h3 : (st', gs') = (st1, gs) :=
      (congrArg Prod.snd h2).symm
    obtain rfl : st' = st1 := congrArg Prod.fst h3
    exact ⟨rfl, hdoc1⟩
  · rw [if_neg hempty] at h
    split at h
    · rename_i stE heq
      injection h with h2
      obtain rfl : code = 500 := (congrArg Prod.fst h2).symm
      have h3 : (st', gs') = (stE, gs) := (congrArg Prod.snd h2).symm
      obtain rfl : st' = stE := congrArg Prod.fst h3
      refine ⟨rfl, ?_⟩
      have := hscdocs (.error st') heq
      simp only at this
      rw [this]
      exact hdoc1
    · rename_i st2 chunk_ids heq
      have hdocs2 : st2.documents = st1.documents := by
        have := hscdocs (.ok (st2, chunk_ids)) heq
        simpa using this
      split at h
      · rename_i gsE heq2
        injection h with h2
        obtain rfl : code = 500 := (congrArg Prod.fst h2).symm
        have h3 : (st', gs') = (st2, gsE) := (congrArg Prod.snd h2).symm
        obtain rfl : st' = st2 := congrArg Prod.fst h3
        refine ⟨rfl, ?_⟩
        rw [hdocs2]
        exact hdoc1
      · rename_i embs gs2 heq2
        split at h
        · rename_i stE heq3
          injection h with h2
          obtain rfl : code = 500 := (congrArg Prod.fst h2).symm
          have h3 : (st', gs') = (stE, gs2) := (congrArg Prod.snd h2).symm
          obtain rfl : st' = stE := congrArg Prod.fst h3
          refine ⟨rfl, ?_⟩
          have hdocs3 := store_embeddings_error_documents _ _ _ _ _ _ _ _ _ heq3
          rw [hdocs3, hdocs2]
          exact hdoc1
        · exact absurd h (by simp)

/-- C8 (code bug): processing a whitespace-only document stores the
document row with `processing_status = 'processing'`, chunking yields
zero chunks, the handler raises (the 400 is swallowed into a 500) — and
the document is left in `'processing'`, never moved to `'failed'`.  The
status enum documented in the code (`pending | processing | completed |
failed`) and the spec's state machine require `'failed'` here. -/
theorem C8_failed_status_never_written :
    process_document ⟨true, 100⟩ (fun _ _ => [0]) ⟨[], 0, 0, 0, 0⟩
        ⟨[], [], [], 0⟩ "doc1" "w" "   ".data "f.txt" "text/plain" 3 "s3key"
        none "user" 5 none none =
      .error (500,
        ⟨[⟨"doc1", "w", "   ".data, "f.txt", "text/plain", 3, "s3key", none,
          "user", 5, 5, "processing", none, none, none⟩], [], [], 0⟩,
        ⟨[], 0, 0, 0, 0⟩) ∧
      ("processing" : String) ≠ "failed" :=
  ⟨rfl, by decide⟩

end Champ
